import Mathlib

/-!
Shallow embedding of the SensorDropout matching-and-loss core
(src/models/matcher.py and src/models/set_criterion.py).

Tensors are modelled as nested lists of real numbers; the flattened batch
views used by the source are modelled with explicit index arithmetic over
those lists.  scipy.optimize.linear_sum_assignment is modelled by its
documented contract: a minimum-total-cost one-to-one assignment between the
rows and columns of a rectangular cost matrix, of size min(rows, cols).
The sigmoid focal loss of util/misc.py is outside src/ and enters the
criterion as an abstract function parameter.
-/

namespace SensorDropout

/-- Ground-truth annotations for one batch element: a list of class labels
and the matching list of 2-D center points (targets dict of the source,
keys "labels" and "center_points"). -/
structure Target where
  labels : List ℕ
  center_points : List (ℝ × ℝ)

/-- Default target used when indexing a list of targets out of range. -/
def emptyTarget : Target := ⟨[], []⟩

/-- Model outputs: pred_logits has shape (B, Q, C) and pred_center_points
has shape (B, Q, 2); the innermost pair is the 2-D point. -/
structure Outputs where
  pred_logits : List (List (List ℝ))
  pred_center_points : List (List (ℝ × ℝ))

/-! ## Linear sum assignment (scipy.optimize.linear_sum_assignment) -/

/-- Total cost of an assignment pairing the k-th listed row with the k-th
listed column in the cost matrix C. -/
def sumCost (C : ℕ → ℕ → ℝ) (rows cols : List ℕ) : ℝ :=
  ((rows.zip cols).map (fun p => C p.1 p.2)).sum

/-- First element of the list attaining the minimal value of f (ties broken
towards the earlier element); none on the empty list. -/
noncomputable def argminFirst {γ : Type} (f : γ → ℝ) : List γ → Option γ
  | [] => none
  | x :: xs => some (xs.foldl (fun b y => if f y < f b then y else b) x)

/-- All length-k sequences of pairwise-distinct elements drawn from pool. -/
def picks : ℕ → List ℕ → List (List ℕ)
  | 0, _ => [[]]
  | k + 1, pool =>
      pool.flatMap (fun r => (picks k (pool.erase r)).map (fun rest => r :: rest))

/-- All length-k sequences of pairwise-distinct indices below n. -/
def injections (n k : ℕ) : List (List ℕ) := picks k (List.range n)

/-- Model of scipy.optimize.linear_sum_assignment on a Q-row, N-column cost
matrix, per its documented contract: it returns a pair (row indices, column
indices) of equal length min(Q, N) describing a one-to-one assignment of
minimal total cost.  The model enumerates all injective assignments of the
smaller side into the larger and picks the first one of minimal cost; the
columns (resp. rows) are listed in increasing order, so the returned pair
denotes the same set of matched (row, column) pairs as scipy's sorted
output. -/
noncomputable def linear_sum_assignment (Q N : ℕ) (C : ℕ → ℕ → ℝ) : List ℕ × List ℕ :=
  if N ≤ Q then
    match argminFirst (fun rows => sumCost C rows (List.range N)) (injections Q N) with
    | some rows => (rows, List.range N)
    | none => ([], [])
  else
    match argminFirst (fun cols => sumCost C (List.range Q) cols) (injections N Q) with
    | some cols => (List.range Q, cols)
    | none => ([], [])

/-! ## HungarianMatcher (src/models/matcher.py) -/

/-- Matcher configuration, the constructor arguments of
HungarianMatcher.__init__ (matcher.py lines 13-31); the Python keyword
defaults are cost_class 1, cost_center_point 1, focal_alpha 0.25 and
focal_gamma 2.0. -/
structure MatcherCfg where
  focal_loss : Bool
  cost_class : ℝ
  cost_center_point : ℝ
  focal_alpha : ℝ
  focal_gamma : ℝ

/-- build_matcher (matcher.py lines 102-107): cost_class 2 and
cost_center_point 5 are passed explicitly, focal_alpha and focal_gamma are
left at the constructor defaults 0.25 and 2.0. -/
def build_matcher (focal : Bool) : MatcherCfg := ⟨focal, 2, 5, 0.25, 2.0⟩

namespace HungarianMatcher

/-- Logistic sigmoid, torch.Tensor.sigmoid: 1 / (1 + exp(-x)). -/
noncomputable def sigmoid (x : ℝ) : ℝ := 1 / (1 + Real.exp (-x))

/-- Entry c of the softmax of a row of logits (torch softmax over the last
dimension): exp(row c) / sum of exp over the row. -/
noncomputable def softmaxAt (row : List ℝ) (c : ℕ) : ℝ :=
  Real.exp (row.getD c 0) / (row.map Real.exp).sum

/-- batch_size of matcher.py line 38: pred_logits.shape[0]. -/
def batch_size (outputs : Outputs) : ℕ := outputs.pred_logits.length

/-- num_queries of matcher.py line 38: pred_logits.shape[1]. -/
def num_queries (outputs : Outputs) : ℕ := (outputs.pred_logits.getD 0 []).length

/-- Row i of the flattened (B·Q, C) logits (the flatten(0, 1) of lines
51/53). -/
def flatLogits (outputs : Outputs) (i : ℕ) : List ℝ :=
  outputs.pred_logits.flatten.getD i []

/-- Per-slot class probabilities out_prob (lines 50-53): an independent
per-class sigmoid of the logits in focal mode, a softmax over classes
otherwise. -/
noncomputable def out_prob (cfg : MatcherCfg) (outputs : Outputs) (i c : ℕ) : ℝ :=
  if cfg.focal_loss then sigmoid ((flatLogits outputs i).getD c 0)
  else softmaxAt (flatLogits outputs i) c

/-- Row i of the flattened (B·Q, 2) predicted center points (line 56). -/
def out_center_points (outputs : Outputs) (i : ℕ) : ℝ × ℝ :=
  outputs.pred_center_points.flatten.getD i (0, 0)

/-- Concatenated target labels across the batch, tgt_ids (line 59). -/
def tgt_ids (targets : List Target) : List ℕ :=
  (targets.map Target.labels).flatten

/-- Concatenated target center points across the batch (line 61). -/
def tgt_center_points (targets : List Target) : List (ℝ × ℝ) :=
  (targets.map Target.center_points).flatten

/-- neg_cost_class of line 65 as a function of one probability entry p:
(1 - alpha) * p^gamma * (-log(1 - p + 1e-8)). -/
noncomputable def neg_cost_class (cfg : MatcherCfg) (p : ℝ) : ℝ :=
  (1 - cfg.focal_alpha) * p ^ cfg.focal_gamma * (-Real.log (1 - p + 1 / 10 ^ 8))

/-- pos_cost_class of line 66 as a function of one probability entry p:
alpha * (1 - p)^gamma * (-log(p + 1e-8)). -/
noncomputable def pos_cost_class (cfg : MatcherCfg) (p : ℝ) : ℝ :=
  cfg.focal_alpha * (1 - p) ^ cfg.focal_gamma * (-Real.log (p + 1 / 10 ^ 8))

/-- Classification-cost entry (i, j) of the flattened cost matrix (lines
63-76): in focal mode pos_cost_class - neg_cost_class gathered at the j-th
concatenated target label, otherwise minus the probability of that label. -/
noncomputable def cost_class (cfg : MatcherCfg) (outputs : Outputs) (targets : List Target)
    (i j : ℕ) : ℝ :=
  if cfg.focal_loss then
    pos_cost_class cfg (out_prob cfg outputs i ((tgt_ids targets).getD j 0))
      - neg_cost_class cfg (out_prob cfg outputs i ((tgt_ids targets).getD j 0))
  else
    -(out_prob cfg outputs i ((tgt_ids targets).getD j 0))

/-- L1 distance between flattened predicted center point i and concatenated
target center point j (torch.cdist with p = 1, line 79). -/
noncomputable def cost_center_points (outputs : Outputs) (targets : List Target)
    (i j : ℕ) : ℝ :=
  |(out_center_points outputs i).1 - ((tgt_center_points targets).getD j (0, 0)).1|
    + |(out_center_points outputs i).2 - ((tgt_center_points targets).getD j (0, 0)).2|

/-- Final flattened cost matrix (lines 83-84): the weighted sum of the
classification cost and the center-point cost. -/
noncomputable def cost_matrix (cfg : MatcherCfg) (outputs : Outputs) (targets : List Target)
    (i j : ℕ) : ℝ :=
  cfg.cost_class * cost_class cfg outputs targets i j
    + cfg.cost_center_point * cost_center_points outputs targets i j

/-- Number of ground-truth objects per batch element, sizes (line 91). -/
def sizes (targets : List Target) : List ℕ :=
  targets.map (fun t => t.labels.length)

/-- Column offset of batch element b in the concatenated target dimension:
the sum of the sizes of the preceding batch elements (the split of line
96). -/
def offsetOf (targets : List Target) (b : ℕ) : ℕ :=
  ((sizes targets).take b).sum

/-- Cost sub-matrix solved for batch element b (lines 87-96): the view to
(B, Q, total_targets) reads flat row b * Q + q, and the split by sizes
followed by taking chunk component b reads column offsetOf b + t. -/
noncomputable def cost_matrix_sample (cfg : MatcherCfg) (outputs : Outputs)
    (targets : List Target) (b : ℕ) (q t : ℕ) : ℝ :=
  cost_matrix cfg outputs targets (b * num_queries outputs + q) (offsetOf targets b + t)

/-- HungarianMatcher.forward (lines 36-99): for each batch element, solve
the rectangular assignment problem on that element's cost sub-matrix of
shape (num_queries, size of that element). -/
noncomputable def forward (cfg : MatcherCfg) (outputs : Outputs)
    (targets : List Target) : List (List ℕ × List ℕ) :=
  (List.range targets.length).map
    (fun b => linear_sum_assignment (num_queries outputs) ((sizes targets).getD b 0)
      (cost_matrix_sample cfg outputs targets b))

/-- Spec-side classification cost, written from the spec's words for the
refinement claims: the cost of one prediction row of logits against one
target label, computed directly from per-sample quantities (no batch
flattening). -/
noncomputable def specClassCost (cfg : MatcherCfg) (logitRow : List ℝ) (label : ℕ) : ℝ :=
  if cfg.focal_loss then
    pos_cost_class cfg (sigmoid (logitRow.getD label 0))
      - neg_cost_class cfg (sigmoid (logitRow.getD label 0))
  else
    -(softmaxAt logitRow label)

/-- Spec-side per-sample cost-matrix entry, written from the spec's words:
entry (q, t) = cost_class weight times the classification cost of
prediction q of sample b against the label of target t of sample b, plus
cost_center_point weight times the L1 distance between the corresponding
center points, all read directly from sample b. -/
noncomputable def specSampleCost (cfg : MatcherCfg) (outputs : Outputs)
    (targets : List Target) (b q t : ℕ) : ℝ :=
  cfg.cost_class * specClassCost cfg ((outputs.pred_logits.getD b []).getD q [])
      ((targets.getD b emptyTarget).labels.getD t 0)
    + cfg.cost_center_point *
      (|((outputs.pred_center_points.getD b []).getD q (0, 0)).1
          - ((targets.getD b emptyTarget).center_points.getD t (0, 0)).1|
        + |((outputs.pred_center_points.getD b []).getD q (0, 0)).2
          - ((targets.getD b emptyTarget).center_points.getD t (0, 0)).2|)

/-- Spec-side variant of the classification cost in which the constant 1 is
not omitted: 1 - prob[target class] instead of -prob[target class] (spec
section 4.1 step 3, non-focal mode). -/
noncomputable def cost_class_one_minus (cfg : MatcherCfg) (outputs : Outputs)
    (targets : List Target) (i j : ℕ) : ℝ :=
  1 - out_prob cfg outputs i ((tgt_ids targets).getD j 0)

/-- Flattened cost matrix built with the 1 - prob classification cost. -/
noncomputable def cost_matrix_one_minus (cfg : MatcherCfg) (outputs : Outputs)
    (targets : List Target) (i j : ℕ) : ℝ :=
  cfg.cost_class * cost_class_one_minus cfg outputs targets i j
    + cfg.cost_center_point * cost_center_points outputs targets i j

/-- Per-sample cost matrix built with the 1 - prob classification cost. -/
noncomputable def cost_matrix_sample_one_minus (cfg : MatcherCfg) (outputs : Outputs)
    (targets : List Target) (b q t : ℕ) : ℝ :=
  cost_matrix_one_minus cfg outputs targets (b * num_queries outputs + q)
    (offsetOf targets b + t)

end HungarianMatcher

/-! ## SetCriterion (src/models/set_criterion.py) -/

namespace SetCriterion

/-- Raw logits read as a function of (batch, query, class). -/
def src_logits (outputs : Outputs) (b q c : ℕ) : ℝ :=
  ((outputs.pred_logits.getD b []).getD q []).getD c 0

/-- Index bookkeeping _get_src_permutation_idx (set_criterion.py lines
92-96): for each batch element i the batch index i repeated once per
matched row, all concatenated, paired with the concatenation of the row
indices themselves (enumerate is modelled by indexing over the range of the
list length). -/
def get_src_permutation_idx (indices : List (List ℕ × List ℕ)) : List ℕ × List ℕ :=
  (((List.range indices.length).map
      (fun i => ((indices.getD i ([], [])).1).map (fun _ => i))).flatten,
   (indices.map (fun p => p.1)).flatten)

/-- Matched ground-truth labels target_classes_o (line 29): for each batch
element, its labels gathered at the matched column indices, concatenated in
batch order. -/
def target_classes_o (targets : List Target) (indices : List (List ℕ × List ℕ)) : List ℕ :=
  ((targets.zip indices).map (fun p => p.2.2.map (fun j => p.1.labels.getD j 0))).flatten

/-- Functional model of the advanced-indexing write target_classes[idx] =
target_classes_o (line 35): apply the position/value updates left to right,
a later write to the same position winning, as in torch. -/
def scatterWrites (init : ℕ → ℕ → ℕ) (ups : List ((ℕ × ℕ) × ℕ)) : ℕ → ℕ → ℕ :=
  ups.foldl (fun g u => fun b q => if b = u.1.1 ∧ q = u.1.2 then u.2 else g b q) init

/-- Update list of the advanced-indexing write: the matched (batch, query)
positions from _get_src_permutation_idx paired with the matched labels. -/
def updates (targets : List Target) (indices : List (List ℕ × List ℕ)) :
    List ((ℕ × ℕ) × ℕ) :=
  ((get_src_permutation_idx indices).1.zip (get_src_permutation_idx indices).2).zip
    (target_classes_o targets indices)

/-- Per-slot target classes (lines 32-35): a (B, Q) tensor filled with the
sentinel num_classes, then overwritten at the matched (batch, query)
positions with the assigned ground-truth labels. -/
def target_classes (num_classes : ℕ) (targets : List Target)
    (indices : List (List ℕ × List ℕ)) : ℕ → ℕ → ℕ :=
  scatterWrites (fun _ _ => num_classes) (updates targets indices)

/-- One-hot target tensor after the background column is dropped (lines
38-45): scatter_ writes 1 at the target class along the class dimension of
a zero (B, Q, C+1) tensor, and the slice [:, :, :-1] keeps the classes
below num_classes, so entry (b, q, c) is 1 exactly when c is the target
class of slot (b, q) and is not the background sentinel. -/
noncomputable def target_classes_onehot (num_classes : ℕ) (targets : List Target)
    (indices : List (List ℕ × List ℕ)) (b q c : ℕ) : ℝ :=
  if c < num_classes ∧ c = target_classes num_classes targets indices b q then 1 else 0

/-- Classification loss loss_labels_focal (lines 17-52) with the sigmoid
focal loss of util/misc.py (outside src/) taken as an abstract function sfl
of the raw logits, the one-hot targets, num_objects, alpha and gamma; the
result is multiplied by the number of query slots (line 51). -/
noncomputable def loss_labels_focal
    (sfl : (ℕ → ℕ → ℕ → ℝ) → (ℕ → ℕ → ℕ → ℝ) → ℝ → ℝ → ℝ → ℝ)
    (num_classes : ℕ) (focal_alpha focal_gamma : ℝ) (outputs : Outputs)
    (targets : List Target) (indices : List (List ℕ × List ℕ))
    (num_objects : ℝ) : ℝ :=
  sfl (src_logits outputs) (target_classes_onehot num_classes targets indices)
      num_objects focal_alpha focal_gamma
    * (HungarianMatcher.num_queries outputs : ℝ)

/-- Predicted center points gathered at the matched (batch, query)
positions (line 67). -/
def src_center_points_gathered (outputs : Outputs)
    (indices : List (List ℕ × List ℕ)) : List (ℝ × ℝ) :=
  ((get_src_permutation_idx indices).1.zip (get_src_permutation_idx indices).2).map
    (fun p => (outputs.pred_center_points.getD p.1 []).getD p.2 (0, 0))

/-- Ground-truth center points gathered at the matched column indices, in
the same per-batch order (line 68). -/
def target_center_points_gathered (targets : List Target)
    (indices : List (List ℕ × List ℕ)) : List (ℝ × ℝ) :=
  ((targets.zip indices).map
    (fun p => p.2.2.map (fun j => p.1.center_points.getD j (0, 0)))).flatten

/-- Center-point loss loss_center_points (lines 60-75): the elementwise L1
distance between the gathered predictions and the gathered targets, summed
over all matched pairs and both coordinates, divided by num_objects. -/
noncomputable def loss_center_point (outputs : Outputs) (targets : List Target)
    (indices : List (List ℕ × List ℕ)) (num_objects : ℝ) : ℝ :=
  (((src_center_points_gathered outputs indices).zip
      (target_center_points_gathered targets indices)).map
    (fun p => |p.1.1 - p.2.1| + |p.1.2 - p.2.2|)).sum / num_objects

/-- Total ground-truth object count across the batch (line 80). -/
def num_objects (targets : List Target) : ℕ :=
  (targets.map (fun t => t.labels.length)).sum

/-- SetCriterion.forward (lines 77-90): run the matcher, count the objects,
and return the pair (loss_ce, loss_center_point), both normalized by the
unclamped num_objects. -/
noncomputable def forward
    (sfl : (ℕ → ℕ → ℕ → ℝ) → (ℕ → ℕ → ℕ → ℝ) → ℝ → ℝ → ℝ → ℝ)
    (num_classes : ℕ) (focal_alpha focal_gamma : ℝ) (cfg : MatcherCfg)
    (outputs : Outputs) (targets : List Target) : ℝ × ℝ :=
  (loss_labels_focal sfl num_classes focal_alpha focal_gamma outputs targets
      (HungarianMatcher.forward cfg outputs targets) (num_objects targets : ℝ),
   loss_center_point outputs targets (HungarianMatcher.forward cfg outputs targets)
      (num_objects targets : ℝ))

end SetCriterion

/-- Shape constraints of the matcher contract: pred_logits is (B, Q, C),
pred_center_points is (B, Q, 2) with the same B and Q, the targets list has
B groups, and each group carries as many center points as labels. -/
structure ValidShapes (outputs : Outputs) (targets : List Target) : Prop where
  logits_rows : ∀ r ∈ outputs.pred_logits, r.length = HungarianMatcher.num_queries outputs
  cp_batch : outputs.pred_center_points.length = outputs.pred_logits.length
  cp_rows : ∀ r ∈ outputs.pred_center_points, r.length = HungarianMatcher.num_queries outputs
  tgt_batch : targets.length = outputs.pred_logits.length
  tgt_lens : ∀ tg ∈ targets, tg.center_points.length = tg.labels.length

/-! ## Lemmas about argminFirst -/

theorem argminFirst_foldl_mem {γ : Type} (f : γ → ℝ) :
    ∀ (xs : List γ) (x : γ),
      xs.foldl (fun b y => if f y < f b then y else b) x ∈ x :: xs := by
  intro xs
  induction xs with
  | nil => intro x; simp
  | cons z zs ih =>
      intro x
      have h := ih (if f z < f x then z else x)
      simp only [List.foldl_cons]
      rcases List.mem_cons.mp h with h1 | h1
      · by_cases hc : f z < f x
        · rw [h1]; simp [hc]
        · rw [h1]; simp [hc]
      · simp [h1]

theorem argminFirst_foldl_le {γ : Type} (f : γ → ℝ) :
    ∀ (xs : List γ) (x : γ) (y : γ), y ∈ x :: xs →
      f (xs.foldl (fun b y => if f y < f b then y else b) x) ≤ f y := by
  intro xs
  induction xs with
  | nil =>
      intro x y hy
      rcases List.mem_cons.mp hy with h | h
      · subst h; simp
      · simp at h
  | cons z zs ih =>
      intro x y hy
      simp only [List.foldl_cons]
      have hstep_le_x : f (if f z < f x then z else x) ≤ f x := by
        by_cases hc : f z < f x
        · simp [hc]; exact le_of_lt hc
        · simp [hc]
      have hstep_le_z : f (if f z < f x then z else x) ≤ f z := by
        by_cases hc : f z < f x
        · simp [hc]
        · simp [hc]; exact le_of_not_lt hc
      rcases List.mem_cons.mp hy with h | h
      · subst h
        exact le_trans (ih _ _ (List.mem_cons_self _ _)) hstep_le_x
      · rcases List.mem_cons.mp h with h1 | h1
        · subst h1
          exact le_trans (ih _ _ (List.mem_cons_self _ _)) hstep_le_z
        · exact ih _ _ (List.mem_cons.mpr (Or.inr h1))

theorem argminFirst_mem {γ : Type} {f : γ → ℝ} {l : List γ} {x : γ}
    (h : argminFirst f l = some x) : x ∈ l := by
  cases l with
  | nil => simp [argminFirst] at h
  | cons z zs =>
      simp only [argminFirst, Option.some.injEq] at h
      rw [← h]
      exact argminFirst_foldl_mem f zs z

theorem argminFirst_le {γ : Type} {f : γ → ℝ} {l : List γ} {x : γ}
    (h : argminFirst f l = some x) : ∀ y ∈ l, f x ≤ f y := by
  cases l with
  | nil => simp [argminFirst] at h
  | cons z zs =>
      simp only [argminFirst, Option.some.injEq] at h
      rw [← h]
      exact fun y hy => argminFirst_foldl_le f zs z y hy

theorem argminFirst_isSome {γ : Type} (f : γ → ℝ) {l : List γ} (h : l ≠ []) :
    ∃ x, argminFirst f l = some x := by
  cases l with
  | nil => exact absurd rfl h
  | cons z zs => exact ⟨_, rfl⟩

theorem argminFirst_eq_of_unique {γ : Type} {f : γ → ℝ} {l : List γ} {x m : γ}
    (hm : m ∈ l) (hmin : ∀ y ∈ l, y ≠ m → f m < f y)
    (h : argminFirst f l = some x) : x = m := by
  by_contra hne
  have hx := argminFirst_mem h
  have h1 : f x ≤ f m := argminFirst_le h m hm
  have h2 : f m < f x := hmin x hx hne
  exact absurd (lt_of_lt_of_le h2 h1) (lt_irrefl _)

theorem argminFirst_shift {γ : Type} {f g : γ → ℝ} {d : ℝ} :
    ∀ {l : List γ}, (∀ y ∈ l, g y = f y + d) → argminFirst g l = argminFirst f l := by
  have key : ∀ (xs : List γ) (x : γ), g x = f x + d → (∀ y ∈ xs, g y = f y + d) →
      xs.foldl (fun b y => if g y < g b then y else b) x
        = xs.foldl (fun b y => if f y < f b then y else b) x := by
    intro xs
    induction xs with
    | nil => intro x _ _; rfl
    | cons z zs ih =>
        intro x hx hxs
        have hz : g z = f z + d := hxs z (List.mem_cons_self _ _)
        have hiff : (g z < g x) ↔ (f z < f x) := by
          rw [hz, hx]; exact add_lt_add_iff_right d
        have hzs : ∀ y ∈ zs, g y = f y + d :=
          fun y hy => hxs y (List.mem_cons.mpr (Or.inr hy))
        simp only [List.foldl_cons]
        by_cases hc : f z < f x
        · rw [if_pos (hiff.mpr hc), if_pos hc]
          exact ih z hz hzs
        · rw [if_neg (fun hgc => hc (hiff.mp hgc)), if_neg hc]
          exact ih x hx hzs
  intro l hl
  cases l with
  | nil => rfl
  | cons z zs =>
      simp only [argminFirst, Option.some.injEq]
      exact key zs z (hl z (List.mem_cons_self _ _))
        (fun y hy => hl y (List.mem_cons.mpr (Or.inr hy)))

/-! ## Lemmas about picks and injections -/

theorem mem_picks : ∀ {k : ℕ} {pool l : List ℕ}, pool.Nodup →
    (l ∈ picks k pool ↔ l.length = k ∧ l.Nodup ∧ ∀ x ∈ l, x ∈ pool) := by
  intro k
  induction k with
  | zero =>
      intro pool l _
      constructor
      · intro h
        simp [picks] at h
        subst h; simp
      · intro ⟨h1, _, _⟩
        have : l = [] := List.eq_nil_of_length_eq_zero h1
        subst this; simp [picks]
  | succ k ih =>
      intro pool l hp
      constructor
      · intro h
        simp only [picks, List.mem_flatMap, List.mem_map] at h
        obtain ⟨r, hr, rest, hrest, hl⟩ := h
        have herase : (pool.erase r).Nodup := hp.erase r
        obtain ⟨hlen, hnd, hmem⟩ := (ih herase).mp hrest
        subst hl
        refine ⟨by simp [hlen], ?_, ?_⟩
        · refine List.nodup_cons.mpr ⟨?_, hnd⟩
          intro hmem2
          exact ((hp.mem_erase_iff).mp (hmem r hmem2)).1 rfl
        · intro x hx
          rcases List.mem_cons.mp hx with h1 | h1
          · subst h1; exact hr
          · exact ((hp.mem_erase_iff).mp (hmem x h1)).2
      · intro ⟨hlen, hnd, hmem⟩
        cases l with
        | nil => simp at hlen
        | cons r rest =>
            simp only [picks, List.mem_flatMap, List.mem_map]
            refine ⟨r, hmem r (List.mem_cons_self _ _), rest, ?_, rfl⟩
            have herase : (pool.erase r).Nodup := hp.erase r
            refine (ih herase).mpr ⟨by simpa using hlen, (List.nodup_cons.mp hnd).2, ?_⟩
            intro x hx
            refine (hp.mem_erase_iff).mpr ⟨?_, hmem x (List.mem_cons.mpr (Or.inr hx))⟩
            intro hxr
            exact (List.nodup_cons.mp hnd).1 (hxr ▸ hx)

theorem mem_injections {n k : ℕ} {l : List ℕ} :
    l ∈ injections n k ↔ l.length = k ∧ l.Nodup ∧ ∀ x ∈ l, x < n := by
  rw [injections, mem_picks (List.nodup_range n)]
  simp [List.mem_range]

theorem injections_ne_nil {n k : ℕ} (h : k ≤ n) : injections n k ≠ [] := by
  have hmem : (List.range n).take k ∈ injections n k := by
    rw [mem_injections]
    refine ⟨?_, (List.nodup_range n).sublist (List.take_sublist _ _), ?_⟩
    · rw [List.length_take, List.length_range]
      exact min_eq_left h
    · intro x hx
      exact List.mem_range.mp (List.mem_of_mem_take hx)
  intro hnil
  rw [hnil] at hmem
  simp at hmem

/-! ## Indexing lemmas for the flattened batch views -/

theorem getD_map {α β : Type} (f : α → β) (l : List α) (n : ℕ) (d : α) :
    (l.map f).getD n (f d) = f (l.getD n d) := by
  simp only [List.getD_eq_getElem?_getD, List.getElem?_map]
  cases l[n]? <;> simp

theorem flatten_getD_uniform {β : Type} (d : β) :
    ∀ (L : List (List β)) (Q b q : ℕ), (∀ r ∈ L, r.length = Q) → b < L.length → q < Q →
      L.flatten.getD (b * Q + q) d = (L.getD b []).getD q d := by
  intro L
  induction L with
  | nil => intro Q b q _ hb _; simp at hb
  | cons x rest ih =>
      intro Q b q hQ hb hq
      cases b with
      | zero =>
          have hx : x.length = Q := hQ x (List.mem_cons_self _ _)
          simp only [List.flatten_cons, Nat.zero_mul, Nat.zero_add]
          rw [List.getD_append _ _ _ _ (by rw [hx]; exact hq)]
          rfl
      | succ b =>
          have hx : x.length = Q := hQ x (List.mem_cons_self _ _)
          have hidx : (b + 1) * Q + q = x.length + (b * Q + q) := by
            rw [hx]; ring
          simp only [List.flatten_cons, hidx]
          rw [List.getD_append_right _ _ _ _ (Nat.le_add_right _ _), Nat.add_sub_cancel_left]
          exact ih Q b q (fun r hr => hQ r (List.mem_cons.mpr (Or.inr hr)))
            (Nat.lt_of_succ_lt_succ hb) hq

theorem flatten_getD_chunk {β : Type} (d : β) :
    ∀ (L : List (List β)) (b t : ℕ), b < L.length → t < (L.getD b []).length →
      L.flatten.getD ((((L.take b).map List.length).sum) + t) d = (L.getD b []).getD t d := by
  intro L
  induction L with
  | nil => intro b t hb _; simp at hb
  | cons x rest ih =>
      intro b t hb ht
      cases b with
      | zero =>
          simp only [List.take_zero, List.map_nil, List.sum_nil, Nat.zero_add,
            List.flatten_cons]
          rw [List.getD_append _ _ _ _ (by exact ht)]
          rfl
      | succ b =>
          simp only [List.take_succ_cons, List.map_cons, List.sum_cons, List.flatten_cons,
            Nat.add_assoc]
          rw [List.getD_append_right _ _ _ _ (Nat.le_add_right _ _), Nat.add_sub_cancel_left]
          exact ih b t (Nat.lt_of_succ_lt_succ hb) ht

theorem getD_map_range {β : Type} (f : ℕ → β) {n b : ℕ} (d : β) (hb : b < n) :
    ((List.range n).map f).getD b d = f b := by
  rw [List.getD_eq_getElem _ _ (by simpa using hb)]
  rw [List.getElem_map]
  congr 1
  exact List.getElem_range _ _

theorem getD_mem {α : Type} {l : List α} {n : ℕ} {d : α} (h : n < l.length) :
    l.getD n d ∈ l := by
  rw [List.getD_eq_getElem _ _ h]
  exact List.getElem_mem h

/-! ## The per-sample reading of the matcher cost matrix -/

namespace HungarianMatcher

theorem sizes_getD (targets : List Target) (b : ℕ) :
    (sizes targets).getD b 0 = (targets.getD b emptyTarget).labels.length := by
  have h := getD_map (fun t : Target => t.labels.length) targets b emptyTarget
  simpa [sizes, emptyTarget] using h

theorem flatLogits_eq {outputs : Outputs} {targets : List Target}
    (h : ValidShapes outputs targets) {b q : ℕ}
    (hb : b < targets.length) (hq : q < num_queries outputs) :
    flatLogits outputs (b * num_queries outputs + q)
      = (outputs.pred_logits.getD b []).getD q [] := by
  have hb' : b < outputs.pred_logits.length := h.tgt_batch ▸ hb
  exact flatten_getD_uniform [] outputs.pred_logits (num_queries outputs) b q
    h.logits_rows hb' hq

theorem out_center_points_eq {outputs : Outputs} {targets : List Target}
    (h : ValidShapes outputs targets) {b q : ℕ}
    (hb : b < targets.length) (hq : q < num_queries outputs) :
    out_center_points outputs (b * num_queries outputs + q)
      = (outputs.pred_center_points.getD b []).getD q (0, 0) := by
  have hb' : b < outputs.pred_center_points.length := by
    rw [h.cp_batch, ← h.tgt_batch]; exact hb
  exact flatten_getD_uniform (0, 0) outputs.pred_center_points (num_queries outputs) b q
    h.cp_rows hb' hq

theorem sizes_eq_map_labels (targets : List Target) :
    sizes targets = (targets.map Target.labels).map List.length := by
  simp [sizes, List.map_map, Function.comp]

theorem tgt_ids_getD {targets : List Target} {b t : ℕ}
    (hb : b < targets.length)
    (ht : t < (targets.getD b emptyTarget).labels.length) :
    (tgt_ids targets).getD (offsetOf targets b + t) 0
      = (targets.getD b emptyTarget).labels.getD t 0 := by
  have hmapD : (targets.map Target.labels).getD b []
      = (targets.getD b emptyTarget).labels := by
    have h := getD_map Target.labels targets b emptyTarget
    simpa [emptyTarget] using h
  have hoff : offsetOf targets b
      = (((targets.map Target.labels).take b).map List.length).sum := by
    rw [offsetOf, sizes_eq_map_labels, List.map_take]
  have hb' : b < (targets.map Target.labels).length := by simpa using hb
  have ht' : t < ((targets.map Target.labels).getD b []).length := by
    rw [hmapD]; exact ht
  have h := flatten_getD_chunk 0 (targets.map Target.labels) b t hb' ht'
  rw [tgt_ids, hoff]
  rw [h, hmapD]

theorem tgt_center_points_getD {outputs : Outputs} {targets : List Target}
    (hshape : ValidShapes outputs targets) {b t : ℕ}
    (hb : b < targets.length)
    (ht : t < (targets.getD b emptyTarget).labels.length) :
    (tgt_center_points targets).getD (offsetOf targets b + t) (0, 0)
      = (targets.getD b emptyTarget).center_points.getD t (0, 0) := by
  have hmapD : (targets.map Target.center_points).getD b []
      = (targets.getD b emptyTarget).center_points := by
    have h := getD_map Target.center_points targets b emptyTarget
    simpa [emptyTarget] using h
  have hoff : offsetOf targets b
      = (((targets.map Target.center_points).take b).map List.length).sum := by
    rw [offsetOf, sizes, ← List.map_take, ← List.map_take, List.map_map]
    congr 1
    apply List.map_congr_left
    intro tg htg
    simp only [Function.comp_apply]
    exact (hshape.tgt_lens tg (List.mem_of_mem_take htg)).symm
  have hb' : b < (targets.map Target.center_points).length := by simpa using hb
  have ht' : t < ((targets.map Target.center_points).getD b []).length := by
    rw [hmapD]
    rw [hshape.tgt_lens _ (getD_mem hb)]
    exact ht
  have h := flatten_getD_chunk (0, 0) (targets.map Target.center_points) b t hb' ht'
  rw [tgt_center_points, hoff]
  rw [h, hmapD]

/-- Central refinement lemma: entry (q, t) of the per-sample cost matrix the
Matcher solves for batch element b, obtained through flattening, target
concatenation, view and split, equals the direct per-sample cost of
prediction q of sample b against target t of sample b. -/
theorem cost_class_flat_eq {cfg : MatcherCfg} {outputs : Outputs} {targets : List Target}
    (h : ValidShapes outputs targets) {b q t : ℕ}
    (hb : b < targets.length) (hq : q < num_queries outputs)
    (ht : t < (targets.getD b emptyTarget).labels.length) :
    cost_class cfg outputs targets (b * num_queries outputs + q) (offsetOf targets b + t)
      = specClassCost cfg ((outputs.pred_logits.getD b []).getD q [])
          ((targets.getD b emptyTarget).labels.getD t 0) := by
  rw [cost_class, specClassCost, out_prob]
  rw [flatLogits_eq h hb hq, tgt_ids_getD hb ht]
  by_cases hf : cfg.focal_loss <;> simp [hf]

theorem cost_center_points_flat_eq {outputs : Outputs} {targets : List Target}
    (h : ValidShapes outputs targets) {b q t : ℕ}
    (hb : b < targets.length) (hq : q < num_queries outputs)
    (ht : t < (targets.getD b emptyTarget).labels.length) :
    cost_center_points outputs targets (b * num_queries outputs + q) (offsetOf targets b + t)
      = |((outputs.pred_center_points.getD b []).getD q (0, 0)).1
          - ((targets.getD b emptyTarget).center_points.getD t (0, 0)).1|
        + |((outputs.pred_center_points.getD b []).getD q (0, 0)).2
          - ((targets.getD b emptyTarget).center_points.getD t (0, 0)).2| := by
  rw [cost_center_points]
  rw [out_center_points_eq h hb hq, tgt_center_points_getD h hb ht]

theorem cost_matrix_sample_eq {cfg : MatcherCfg} {outputs : Outputs} {targets : List Target}
    (h : ValidShapes outputs targets) {b q t : ℕ}
    (hb : b < targets.length) (hq : q < num_queries outputs)
    (ht : t < (targets.getD b emptyTarget).labels.length) :
    cost_matrix_sample cfg outputs targets b q t = specSampleCost cfg outputs targets b q t := by
  rw [cost_matrix_sample, cost_matrix, specSampleCost]
  rw [cost_class_flat_eq h hb hq ht, cost_center_points_flat_eq h hb hq ht]

theorem forward_getD {cfg : MatcherCfg} {outputs : Outputs} {targets : List Target}
    {b : ℕ} (hb : b < targets.length) :
    (forward cfg outputs targets).getD b ([], [])
      = linear_sum_assignment (num_queries outputs) ((sizes targets).getD b 0)
          (cost_matrix_sample cfg outputs targets b) := by
  rw [forward]
  exact getD_map_range _ _ hb

theorem forward_length (cfg : MatcherCfg) (outputs : Outputs) (targets : List Target) :
    (forward cfg outputs targets).length = targets.length := by
  rw [forward, List.length_map, List.length_range]

end HungarianMatcher

/-! ## Properties of the assignment solver -/

theorem lap_le_branch {Q N : ℕ} (hNQ : N ≤ Q) (C : ℕ → ℕ → ℝ) :
    ∃ rows, argminFirst (fun rows => sumCost C rows (List.range N)) (injections Q N)
        = some rows
      ∧ linear_sum_assignment Q N C = (rows, List.range N) := by
  obtain ⟨rows, hrows⟩ :=
    argminFirst_isSome (fun rows => sumCost C rows (List.range N)) (injections_ne_nil hNQ)
  exact ⟨rows, hrows, by rw [linear_sum_assignment, if_pos hNQ, hrows]⟩

theorem lap_gt_branch {Q N : ℕ} (hNQ : ¬ N ≤ Q) (C : ℕ → ℕ → ℝ) :
    ∃ cols, argminFirst (fun cols => sumCost C (List.range Q) cols) (injections N Q)
        = some cols
      ∧ linear_sum_assignment Q N C = (List.range Q, cols) := by
  have hQN : Q ≤ N := le_of_not_le hNQ
  obtain ⟨cols, hcols⟩ :=
    argminFirst_isSome (fun cols => sumCost C (List.range Q) cols) (injections_ne_nil hQN)
  exact ⟨cols, hcols, by rw [linear_sum_assignment, if_neg hNQ, hcols]⟩

theorem lap_gt_eval {Q N : ℕ} (hNQ : ¬ N ≤ Q) (C : ℕ → ℕ → ℝ) {cols : List ℕ}
    (h : argminFirst (fun cols => sumCost C (List.range Q) cols) (injections N Q)
      = some cols) :
    linear_sum_assignment Q N C = (List.range Q, cols) := by
  rw [linear_sum_assignment, if_neg hNQ, h]

theorem linear_sum_assignment_valid (Q N : ℕ) (C : ℕ → ℕ → ℝ) :
    (linear_sum_assignment Q N C).1.length = min Q N
      ∧ (linear_sum_assignment Q N C).2.length = min Q N
      ∧ (linear_sum_assignment Q N C).1.Nodup
      ∧ (linear_sum_assignment Q N C).2.Nodup
      ∧ (∀ r ∈ (linear_sum_assignment Q N C).1, r < Q)
      ∧ (∀ c ∈ (linear_sum_assignment Q N C).2, c < N) := by
  by_cases hNQ : N ≤ Q
  · obtain ⟨rows, hsome, heq⟩ := lap_le_branch hNQ C
    obtain ⟨hlen, hnd, hlt⟩ := mem_injections.mp (argminFirst_mem hsome)
    rw [heq]
    exact ⟨by simpa [min_eq_right hNQ] using hlen,
      by simp [min_eq_right hNQ],
      hnd, List.nodup_range N, hlt, fun c hc => List.mem_range.mp hc⟩
  · have hQN : Q ≤ N := le_of_not_le hNQ
    obtain ⟨cols, hsome, heq⟩ := lap_gt_branch hNQ C
    obtain ⟨hlen, hnd, hlt⟩ := mem_injections.mp (argminFirst_mem hsome)
    rw [heq]
    exact ⟨by simp [min_eq_left hQN],
      by simpa [min_eq_left hQN] using hlen,
      List.nodup_range Q, hnd, fun r hr => List.mem_range.mp hr, hlt⟩

theorem linear_sum_assignment_optimal {Q N : ℕ} (hNQ : N ≤ Q) (C : ℕ → ℕ → ℝ) :
    (linear_sum_assignment Q N C).2 = List.range N
      ∧ ∀ rows', rows'.length = N → rows'.Nodup → (∀ r ∈ rows', r < Q) →
          sumCost C (linear_sum_assignment Q N C).1 (List.range N)
            ≤ sumCost C rows' (List.range N) := by
  obtain ⟨rows, hsome, heq⟩ := lap_le_branch hNQ C
  rw [heq]
  exact ⟨rfl, fun rows' h1 h2 h3 =>
    argminFirst_le hsome rows' (mem_injections.mpr ⟨h1, h2, h3⟩)⟩

theorem linear_sum_assignment_unique {Q N : ℕ} (hNQ : N ≤ Q) (C : ℕ → ℕ → ℝ)
    {m : List ℕ} (h1 : m.length = N) (h2 : m.Nodup) (h3 : ∀ r ∈ m, r < Q)
    (hmin : ∀ rows', rows'.length = N → rows'.Nodup → (∀ r ∈ rows', r < Q) → rows' ≠ m →
      sumCost C m (List.range N) < sumCost C rows' (List.range N)) :
    (linear_sum_assignment Q N C).1 = m := by
  obtain ⟨rows, hsome, heq⟩ := lap_le_branch hNQ C
  rw [heq]
  refine argminFirst_eq_of_unique (mem_injections.mpr ⟨h1, h2, h3⟩) ?_ hsome
  intro y hy hne
  obtain ⟨hy1, hy2, hy3⟩ := mem_injections.mp hy
  exact hmin y hy1 hy2 hy3 hne

theorem sum_map_add_const {γ : Type} (l : List γ) (f : γ → ℝ) (d : ℝ) :
    (l.map (fun x => f x + d)).sum = (l.map f).sum + l.length * d := by
  induction l with
  | nil => simp
  | cons x xs ih =>
      simp only [List.map_cons, List.sum_cons, List.length_cons, ih]
      push_cast
      ring

theorem sumCost_shift (C : ℕ → ℕ → ℝ) (d : ℝ) (rows cols : List ℕ) :
    sumCost (fun i j => C i j + d) rows cols
      = sumCost C rows cols + (rows.zip cols).length * d := by
  rw [sumCost, sumCost]
  exact sum_map_add_const _ _ d

theorem linear_sum_assignment_shift (Q N : ℕ) (C : ℕ → ℕ → ℝ) (d : ℝ) :
    linear_sum_assignment Q N (fun i j => C i j + d) = linear_sum_assignment Q N C := by
  by_cases hNQ : N ≤ Q
  · rw [linear_sum_assignment, linear_sum_assignment, if_pos hNQ, if_pos hNQ]
    have hs : argminFirst
          (fun rows => sumCost (fun i j => C i j + d) rows (List.range N))
          (injections Q N)
        = argminFirst (fun rows => sumCost C rows (List.range N)) (injections Q N) := by
      apply argminFirst_shift (d := (N : ℝ) * d)
      intro rows hrows
      obtain ⟨hlen, _, _⟩ := mem_injections.mp hrows
      rw [sumCost_shift, List.length_zip, hlen, List.length_range, min_self]
    rw [hs]
  · rw [linear_sum_assignment, linear_sum_assignment, if_neg hNQ, if_neg hNQ]
    have hs : argminFirst
          (fun cols => sumCost (fun i j => C i j + d) (List.range Q) cols)
          (injections N Q)
        = argminFirst (fun cols => sumCost C (List.range Q) cols) (injections N Q) := by
      apply argminFirst_shift (d := (Q : ℝ) * d)
      intro cols hcols
      obtain ⟨hlen, _, _⟩ := mem_injections.mp hcols
      rw [sumCost_shift, List.length_zip, hlen, List.length_range, min_self]
    rw [hs]

theorem linear_sum_assignment_zero_targets (Q : ℕ) (C : ℕ → ℕ → ℝ) :
    linear_sum_assignment Q 0 C = ([], []) := by
  rw [linear_sum_assignment, if_pos (Nat.zero_le Q)]
  have h1 : injections Q 0 = [[]] := rfl
  rw [h1]
  simp [argminFirst]

namespace HungarianMatcher

theorem forward_mem_spec {cfg : MatcherCfg} {outputs : Outputs} {targets : List Target} :
    ∀ p ∈ forward cfg outputs targets,
      (p.1.length = p.2.length ∧ p.1.Nodup) ∧ p.2.Nodup := by
  intro p hp
  rw [forward] at hp
  obtain ⟨b, _, hpb⟩ := List.mem_map.mp hp
  rw [← hpb]
  obtain ⟨h1, h2, h3, h4, _, _⟩ := linear_sum_assignment_valid (num_queries outputs)
    ((sizes targets).getD b 0) (cost_matrix_sample cfg outputs targets b)
  exact ⟨⟨h1.trans h2.symm, h3⟩, h4⟩

theorem forward_cols_bound {cfg : MatcherCfg} {outputs : Outputs} {targets : List Target}
    {b : ℕ} (hb : b < targets.length) :
    ∀ c ∈ ((forward cfg outputs targets).getD b ([], [])).2,
      c < (targets.getD b emptyTarget).labels.length := by
  intro c hc
  rw [forward_getD hb] at hc
  have h := (linear_sum_assignment_valid (num_queries outputs)
    ((sizes targets).getD b 0) (cost_matrix_sample cfg outputs targets b)).2.2.2.2.2 c hc
  rwa [sizes_getD] at h

end HungarianMatcher

/-! ## Zip and flatten decomposition lemmas -/

theorem zip_flatten {α β : Type} :
    ∀ (A : List (List α)) (B : List (List β)), A.length = B.length →
      (∀ p ∈ A.zip B, p.1.length = p.2.length) →
      A.flatten.zip B.flatten = ((A.zip B).map (fun p => p.1.zip p.2)).flatten := by
  intro A
  induction A with
  | nil =>
      intro B hlen _
      cases B with
      | nil => simp
      | cons b bs => simp at hlen
  | cons a as ih =>
      intro B hlen hp
      cases B with
      | nil => simp at hlen
      | cons b bs =>
          simp only [List.flatten_cons, List.zip_cons_cons, List.map_cons]
          rw [List.zip_append (hp (a, b) (by simp [List.zip_cons_cons]))]
          rw [ih bs (by simpa using hlen)
            (fun p hp' => hp p (by simp only [List.zip_cons_cons, List.mem_cons]; exact Or.inr hp'))]

theorem map_const_zip {α : Type} (c : ℕ) (l : List α) :
    (l.map (fun _ => c)).zip l = l.map (fun x => (c, x)) := by
  induction l with
  | nil => rfl
  | cons x xs ih => simp only [List.map_cons, List.zip_cons_cons, ih]

namespace SetCriterion

theorem src_perm_fst (indices : List (List ℕ × List ℕ)) :
    (get_src_permutation_idx indices).1
      = ((List.range indices.length).map
          (fun i => ((indices.getD i ([], [])).1).map (fun _ => i))).flatten := rfl

theorem map_eq_range_map {α β : Type} (f : α → β) (l : List α) (d : α) :
    l.map f = (List.range l.length).map (fun i => f (l.getD i d)) := by
  apply List.ext_getElem
  · simp
  · intro n h1 h2
    rw [List.getElem_map, List.getElem_map]
    congr 1
    rw [List.getElem_range]
    rw [List.getD_eq_getElem _ _ (by simpa using h1)]

theorem src_perm_zip (indices : List (List ℕ × List ℕ)) :
    (get_src_permutation_idx indices).1.zip (get_src_permutation_idx indices).2
      = ((List.range indices.length).map
          (fun i => ((indices.getD i ([], [])).1).map (fun r => (i, r)))).flatten := by
  rw [get_src_permutation_idx]
  have hB : (indices.map (fun p => p.1)).flatten
      = ((List.range indices.length).map (fun i => (indices.getD i ([], [])).1)).flatten := by
    rw [map_eq_range_map (fun p => p.1) indices ([], [])]
  rw [hB]
  rw [zip_flatten _ _ (by simp) ?hlens]
  case hlens =>
    intro p hp
    rw [List.zip_map'] at hp
    obtain ⟨i, _, hpi⟩ := List.mem_map.mp hp
    rw [← hpi]
    simp
  rw [List.zip_map', List.map_map]
  congr 1
  apply List.map_congr_left
  intro i _
  simp only [Function.comp_apply]
  exact map_const_zip i (indices.getD i ([], [])).1

theorem target_classes_o_eq (targets : List Target) (indices : List (List ℕ × List ℕ))
    (hlen : indices.length = targets.length) :
    target_classes_o targets indices
      = ((List.range indices.length).map
          (fun i => ((indices.getD i ([], [])).2).map
            (fun j => (targets.getD i emptyTarget).labels.getD j 0))).flatten := by
  rw [target_classes_o]
  congr 1
  apply List.ext_getElem
  · simp [hlen]
  · intro n h1 h2
    have hn : n < targets.length := by
      simp only [List.length_map, List.length_zip, hlen, min_self] at h1
      exact h1
    rw [List.getElem_map, List.getElem_map, List.getElem_zip, List.getElem_range]
    have hn2 : n < indices.length := by rw [hlen]; exact hn
    rw [← List.getD_eq_getElem targets emptyTarget hn,
      ← List.getD_eq_getElem indices ([], []) hn2]

theorem target_cp_gathered_eq (targets : List Target) (indices : List (List ℕ × List ℕ))
    (hlen : indices.length = targets.length) :
    target_center_points_gathered targets indices
      = ((List.range indices.length).map
          (fun i => ((indices.getD i ([], [])).2).map
            (fun j => (targets.getD i emptyTarget).center_points.getD j (0, 0)))).flatten := by
  rw [target_center_points_gathered]
  congr 1
  apply List.ext_getElem
  · simp [hlen]
  · intro n h1 h2
    have hn : n < targets.length := by
      simp only [List.length_map, List.length_zip, hlen, min_self] at h1
      exact h1
    rw [List.getElem_map, List.getElem_map, List.getElem_zip, List.getElem_range]
    have hn2 : n < indices.length := by rw [hlen]; exact hn
    rw [← List.getD_eq_getElem targets emptyTarget hn,
      ← List.getD_eq_getElem indices ([], []) hn2]

theorem src_cp_gathered_eq (outputs : Outputs) (indices : List (List ℕ × List ℕ)) :
    src_center_points_gathered outputs indices
      = ((List.range indices.length).map
          (fun i => ((indices.getD i ([], [])).1).map
            (fun r => (outputs.pred_center_points.getD i []).getD r (0, 0)))).flatten := by
  rw [src_center_points_gathered, src_perm_zip, List.map_flatten, List.map_map]
  congr 1
  apply List.map_congr_left
  intro i _
  simp only [Function.comp_apply, List.map_map]
  rfl

theorem scatterWrites_not_mem {b q : ℕ} :
    ∀ (ups : List ((ℕ × ℕ) × ℕ)) (init : ℕ → ℕ → ℕ),
      (∀ u ∈ ups, ¬(b = u.1.1 ∧ q = u.1.2)) → scatterWrites init ups b q = init b q := by
  intro ups
  induction ups with
  | nil => intro init _; rfl
  | cons u rest ih =>
      intro init h
      have hstep : scatterWrites init (u :: rest) b q
          = scatterWrites (fun b' q' => if b' = u.1.1 ∧ q' = u.1.2 then u.2 else init b' q')
              rest b q := rfl
      rw [hstep, ih _ (fun u' hu' => h u' (List.mem_cons.mpr (Or.inr hu')))]
      exact if_neg (h u (List.mem_cons_self _ _))

theorem scatterWrites_lookup {b q v : ℕ} :
    ∀ (ups : List ((ℕ × ℕ) × ℕ)) (init : ℕ → ℕ → ℕ),
      (ups.map (fun u => u.1)).Nodup → ((b, q), v) ∈ ups →
      scatterWrites init ups b q = v := by
  intro ups
  induction ups with
  | nil => intro init _ hmem; simp at hmem
  | cons u rest ih =>
      intro init hnd hmem
      have hstep : scatterWrites init (u :: rest) b q
          = scatterWrites (fun b' q' => if b' = u.1.1 ∧ q' = u.1.2 then u.2 else init b' q')
              rest b q := rfl
      have hnd1 : (u.1 :: rest.map (fun u => u.1)).Nodup := by
        rw [List.map_cons] at hnd; exact hnd
      have hhead : u.1 ∉ rest.map (fun u => u.1) := (List.nodup_cons.mp hnd1).1
      have htail : (rest.map (fun u => u.1)).Nodup := (List.nodup_cons.mp hnd1).2
      rcases List.mem_cons.mp hmem with h | h
      · rw [hstep]
        rw [scatterWrites_not_mem rest _ ?fresh]
        · rw [← h]
          simp
        case fresh =>
          intro u' hu' hcontra
          apply hhead
          have hu1 : u.1 = (b, q) := by rw [← h]
          have hu'1 : u'.1 = (b, q) := by
            rw [Prod.ext_iff]
            exact ⟨hcontra.1.symm, hcontra.2.symm⟩
          rw [hu1, ← hu'1]
          exact List.mem_map.mpr ⟨u', hu', rfl⟩
      · exact hstep ▸ ih _ htail h

theorem updates_eq (targets : List Target) (indices : List (List ℕ × List ℕ))
    (hlen : indices.length = targets.length)
    (hrc : ∀ p ∈ indices, p.1.length = p.2.length) :
    updates targets indices
      = ((List.range indices.length).map (fun i =>
          ((((indices.getD i ([], [])).1).zip ((indices.getD i ([], [])).2)).map
            (fun rc => ((i, rc.1), (targets.getD i emptyTarget).labels.getD rc.2 0))))).flatten := by
  rw [updates, src_perm_zip, target_classes_o_eq targets indices hlen]
  rw [zip_flatten _ _ (by simp) ?hl]
  case hl =>
    intro p hp
    rw [List.zip_map'] at hp
    obtain ⟨i, hi, hpi⟩ := List.mem_map.mp hp
    rw [← hpi]
    simp only [List.length_map]
    exact hrc _ (getD_mem (List.mem_range.mp hi))
  rw [List.zip_map', List.map_map]
  congr 1
  apply List.map_congr_left
  intro i _
  simp only [Function.comp_apply]
  rw [List.zip_map]
  apply List.map_congr_left
  intro rc _
  rfl

theorem updates_key_mem (targets : List Target) (indices : List (List ℕ × List ℕ))
    (hlen : indices.length = targets.length)
    (hrc : ∀ p ∈ indices, p.1.length = p.2.length)
    {u : (ℕ × ℕ) × ℕ} (hu : u ∈ updates targets indices) :
    u.1.1 < indices.length ∧ u.1.2 ∈ (indices.getD u.1.1 ([], [])).1 := by
  rw [updates_eq targets indices hlen hrc] at hu
  obtain ⟨chunk, hchunk, hu2⟩ := List.mem_flatten.mp hu
  obtain ⟨i, hi, hci⟩ := List.mem_map.mp hchunk
  rw [← hci] at hu2
  obtain ⟨rc, hrc2, hurc⟩ := List.mem_map.mp hu2
  rw [← hurc]
  exact ⟨List.mem_range.mp hi, (List.of_mem_zip hrc2).1⟩

theorem updates_keys_nodup (targets : List Target) (indices : List (List ℕ × List ℕ))
    (hlen : indices.length = targets.length)
    (hrc : ∀ p ∈ indices, p.1.length = p.2.length)
    (hnd : ∀ p ∈ indices, p.1.Nodup) :
    ((updates targets indices).map (fun u => u.1)).Nodup := by
  rw [updates_eq targets indices hlen hrc, List.map_flatten, List.map_map]
  rw [List.nodup_flatten]
  constructor
  · intro l hl
    obtain ⟨i, hi, hli⟩ := List.mem_map.mp hl
    rw [← hli]
    simp only [Function.comp_apply, List.map_map]
    have hkeys : (((indices.getD i ([], [])).1.zip (indices.getD i ([], [])).2).map
        ((fun u : (ℕ × ℕ) × ℕ => u.1) ∘
          (fun rc : ℕ × ℕ => ((i, rc.1), (targets.getD i emptyTarget).labels.getD rc.2 0))))
        = ((indices.getD i ([], [])).1.zip (indices.getD i ([], [])).2).map
            ((fun r => (i, r)) ∘ Prod.fst) := rfl
    rw [hkeys, ← List.map_map]
    rw [List.map_fst_zip _ _ (le_of_eq (hrc _ (getD_mem (List.mem_range.mp hi))))]
    refine List.Nodup.map ?_ (hnd _ (getD_mem (List.mem_range.mp hi)))
    intro a b hab
    simpa using hab
  · rw [List.pairwise_map]
    refine (List.pairwise_lt_range indices.length).imp ?_
    intro i j hij x hxi hxj
    simp only [Function.comp_apply, List.map_map] at hxi hxj
    obtain ⟨rci, _, hrci⟩ := List.mem_map.mp hxi
    obtain ⟨rcj, _, hrcj⟩ := List.mem_map.mp hxj
    have : i = j := by
      have h1 : x.1 = i := by rw [← hrci]; rfl
      have h2 : x.1 = j := by rw [← hrcj]; rfl
      rw [← h1, h2]
    exact absurd this (Nat.ne_of_lt hij)

theorem target_classes_matched (nc : ℕ) (targets : List Target)
    (indices : List (List ℕ × List ℕ))
    (hlen : indices.length = targets.length)
    (hrc : ∀ p ∈ indices, p.1.length = p.2.length)
    (hnd : ∀ p ∈ indices, p.1.Nodup)
    {b k : ℕ} (hb : b < indices.length) (hk : k < (indices.getD b ([], [])).1.length) :
    target_classes nc targets indices b ((indices.getD b ([], [])).1.getD k 0)
      = (targets.getD b emptyTarget).labels.getD ((indices.getD b ([], [])).2.getD k 0) 0 := by
  rw [target_classes]
  apply scatterWrites_lookup _ _ (updates_keys_nodup targets indices hlen hrc hnd)
  rw [updates_eq targets indices hlen hrc]
  apply List.mem_flatten.mpr
  refine ⟨(((indices.getD b ([], [])).1.zip (indices.getD b ([], [])).2).map
    (fun rc => ((b, rc.1), (targets.getD b emptyTarget).labels.getD rc.2 0))), ?_, ?_⟩
  · exact List.mem_map.mpr ⟨b, List.mem_range.mpr hb, rfl⟩
  · have hklen : k < ((indices.getD b ([], [])).1.zip (indices.getD b ([], [])).2).length := by
      rw [List.length_zip, ← hrc _ (getD_mem hb), min_self]
      exact hk
    have hkc : k < (indices.getD b ([], [])).2.length := by
      rw [← hrc _ (getD_mem hb)]
      exact hk
    refine List.mem_map.mpr ⟨((indices.getD b ([], [])).1.getD k 0,
      (indices.getD b ([], [])).2.getD k 0), ?_, rfl⟩
    have hzip : ((indices.getD b ([], [])).1.zip (indices.getD b ([], [])).2).get ⟨k, hklen⟩
        = ((indices.getD b ([], [])).1.getD k 0, (indices.getD b ([], [])).2.getD k 0) := by
      rw [List.get_eq_getElem, List.getElem_zip]
      rw [List.getD_eq_getElem _ _ hk, List.getD_eq_getElem _ _ hkc]
    rw [← hzip]
    exact List.get_mem _ k hklen

theorem target_classes_unmatched (nc : ℕ) (targets : List Target)
    (indices : List (List ℕ × List ℕ))
    (hlen : indices.length = targets.length)
    (hrc : ∀ p ∈ indices, p.1.length = p.2.length)
    {b q : ℕ} (hq : b < indices.length → q ∉ (indices.getD b ([], [])).1) :
    target_classes nc targets indices b q = nc := by
  rw [target_classes]
  apply scatterWrites_not_mem
  intro u hu hcontra
  obtain ⟨hkey1, hkey2⟩ := updates_key_mem targets indices hlen hrc hu
  rw [← hcontra.1] at hkey1 hkey2
  rw [← hcontra.2] at hkey2
  exact hq hkey1 hkey2

theorem loss_cp_eq (outputs : Outputs) (targets : List Target)
    (indices : List (List ℕ × List ℕ))
    (hlen : indices.length = targets.length)
    (hrc : ∀ p ∈ indices, p.1.length = p.2.length) (n : ℝ) :
    loss_center_point outputs targets indices n
      = ((List.range indices.length).map (fun i =>
          ((((indices.getD i ([], [])).1).zip ((indices.getD i ([], [])).2)).map
            (fun rc =>
              |((outputs.pred_center_points.getD i []).getD rc.1 (0, 0)).1
                - ((targets.getD i emptyTarget).center_points.getD rc.2 (0, 0)).1|
              + |((outputs.pred_center_points.getD i []).getD rc.1 (0, 0)).2
                - ((targets.getD i emptyTarget).center_points.getD rc.2 (0, 0)).2|)).sum)).sum
        / n := by
  rw [loss_center_point]
  congr 1
  rw [src_cp_gathered_eq, target_cp_gathered_eq targets indices hlen]
  rw [zip_flatten _ _ (by simp) ?hl]
  case hl =>
    intro p hp
    rw [List.zip_map'] at hp
    obtain ⟨i, hi, hpi⟩ := List.mem_map.mp hp
    rw [← hpi]
    simp only [List.length_map]
    exact hrc _ (getD_mem (List.mem_range.mp hi))
  rw [List.map_flatten, List.sum_flatten]
  simp only [List.zip_map', List.map_map]
  congr 1
  apply List.map_congr_left
  intro i _
  simp only [Function.comp_apply]
  rw [List.zip_map, List.map_map]
  congr 1

end SetCriterion

/-! ## Claim theorems -/

open HungarianMatcher in
/-- C1: for every batch and every sample b with N_b targets (N_b ≤ Q), the
assignment the Matcher returns for sample b — read as pairing target t with
the t-th listed query row — minimizes the total summed cost over that
sample's Q × N_b cost matrix among all one-to-one assignments matching
every target to a distinct query; and when one assignment is strictly
cheaper than every other, the Matcher returns exactly that assignment. -/
theorem C1_matcher_optimal (cfg : MatcherCfg) (outputs : Outputs) (targets : List Target)
    (b : ℕ) (hb : b < targets.length)
    (hNQ : (targets.getD b emptyTarget).labels.length ≤ num_queries outputs) :
    ((forward cfg outputs targets).getD b ([], [])).2
        = List.range (targets.getD b emptyTarget).labels.length
      ∧ (∀ rows', rows'.length = (targets.getD b emptyTarget).labels.length → rows'.Nodup →
          (∀ r ∈ rows', r < num_queries outputs) →
          sumCost (cost_matrix_sample cfg outputs targets b)
              ((forward cfg outputs targets).getD b ([], [])).1
              (List.range (targets.getD b emptyTarget).labels.length)
            ≤ sumCost (cost_matrix_sample cfg outputs targets b) rows'
              (List.range (targets.getD b emptyTarget).labels.length))
      ∧ (∀ m, m.length = (targets.getD b emptyTarget).labels.length → m.Nodup →
          (∀ r ∈ m, r < num_queries outputs) →
          (∀ rows', rows'.length = (targets.getD b emptyTarget).labels.length → rows'.Nodup →
            (∀ r ∈ rows', r < num_queries outputs) → rows' ≠ m →
            sumCost (cost_matrix_sample cfg outputs targets b) m
                (List.range (targets.getD b emptyTarget).labels.length)
              < sumCost (cost_matrix_sample cfg outputs targets b) rows'
                (List.range (targets.getD b emptyTarget).labels.length)) →
          ((forward cfg outputs targets).getD b ([], [])).1 = m) := by
  have heq : (forward cfg outputs targets).getD b ([], [])
      = linear_sum_assignment (num_queries outputs)
          ((targets.getD b emptyTarget).labels.length)
          (cost_matrix_sample cfg outputs targets b) := by
    rw [forward_getD hb, sizes_getD]
  rw [heq]
  obtain ⟨ho1, ho2⟩ :=
    linear_sum_assignment_optimal hNQ (cost_matrix_sample cfg outputs targets b)
  exact ⟨ho1, ho2, fun m h1 h2 h3 hmin =>
    linear_sum_assignment_unique hNQ _ h1 h2 h3 hmin⟩

/-- Witness for C1 at a concrete 1-query, 1-target batch. -/
theorem C1_matcher_optimal_witness :
    0 < ([⟨[0], [(0, 0)]⟩] : List Target).length
      ∧ (([⟨[0], [(0, 0)]⟩] : List Target).getD 0 emptyTarget).labels.length
          ≤ HungarianMatcher.num_queries ⟨[[[0]]], [[(0, 0)]]⟩
      ∧ ((HungarianMatcher.forward ⟨true, 2, 5, 0.25, 2⟩ ⟨[[[0]]], [[(0, 0)]]⟩
            [⟨[0], [(0, 0)]⟩]).getD 0 ([], [])).2 = List.range 1 :=
  ⟨by decide, by decide,
    (C1_matcher_optimal ⟨true, 2, 5, 0.25, 2⟩ ⟨[[[0]]], [[(0, 0)]]⟩ [⟨[0], [(0, 0)]⟩] 0
      (by decide) (by decide)).1⟩

open HungarianMatcher in
/-- C2: for every batch and every sample b, the Matcher's returned
row-index and column-index sequences have equal length min(Q, N_b), every
row index is below Q, every column index is below N_b, and neither
sequence contains a duplicate. -/
theorem C2_matcher_assignment_valid (cfg : MatcherCfg) (outputs : Outputs)
    (targets : List Target) (b : ℕ) (hb : b < targets.length) :
    ((forward cfg outputs targets).getD b ([], [])).1.length
        = min (num_queries outputs) (targets.getD b emptyTarget).labels.length
      ∧ ((forward cfg outputs targets).getD b ([], [])).2.length
        = min (num_queries outputs) (targets.getD b emptyTarget).labels.length
      ∧ ((forward cfg outputs targets).getD b ([], [])).1.Nodup
      ∧ ((forward cfg outputs targets).getD b ([], [])).2.Nodup
      ∧ (∀ r ∈ ((forward cfg outputs targets).getD b ([], [])).1, r < num_queries outputs)
      ∧ (∀ c ∈ ((forward cfg outputs targets).getD b ([], [])).2,
          c < (targets.getD b emptyTarget).labels.length) := by
  have heq : (forward cfg outputs targets).getD b ([], [])
      = linear_sum_assignment (num_queries outputs)
          ((targets.getD b emptyTarget).labels.length)
          (cost_matrix_sample cfg outputs targets b) := by
    rw [forward_getD hb, sizes_getD]
  rw [heq]
  exact linear_sum_assignment_valid _ _ _

/-- Witness for C2 at a concrete 2-query, 1-target batch. -/
theorem C2_matcher_assignment_valid_witness :
    0 < ([⟨[1], [(0, 0)]⟩] : List Target).length
      ∧ ((HungarianMatcher.forward ⟨true, 2, 5, 0.25, 2⟩
            ⟨[[[0], [0]]], [[(0, 0), (1, 1)]]⟩ [⟨[1], [(0, 0)]⟩]).getD 0 ([], [])).1.length
        = min (HungarianMatcher.num_queries ⟨[[[0], [0]]], [[(0, 0), (1, 1)]]⟩)
            (([⟨[1], [(0, 0)]⟩] : List Target).getD 0 emptyTarget).labels.length :=
  ⟨by decide,
    (C2_matcher_assignment_valid ⟨true, 2, 5, 0.25, 2⟩ ⟨[[[0], [0]]], [[(0, 0), (1, 1)]]⟩
      [⟨[1], [(0, 0)]⟩] 0 (by decide)).1⟩

open HungarianMatcher in
/-- C3: for every batch, entry (q, t) of the per-sample cost matrix the
Matcher solves for sample b — built by flattening predictions, concatenating
all samples' targets, reshaping and splitting by per-sample target counts —
equals cost_class times the classification cost of prediction q of sample b
against the label of target t of sample b, plus cost_center_point times the
L1 distance of the corresponding center points: each sample's assignment
problem pairs only its own predictions with its own targets. -/
theorem C3_per_sample_cost_matrix (cfg : MatcherCfg) (outputs : Outputs)
    (targets : List Target) (b q t : ℕ) (h : ValidShapes outputs targets)
    (hb : b < targets.length) (hq : q < num_queries outputs)
    (ht : t < (targets.getD b emptyTarget).labels.length) :
    cost_matrix_sample cfg outputs targets b q t
      = cfg.cost_class * specClassCost cfg ((outputs.pred_logits.getD b []).getD q [])
            ((targets.getD b emptyTarget).labels.getD t 0)
        + cfg.cost_center_point *
          (|((outputs.pred_center_points.getD b []).getD q (0, 0)).1
              - ((targets.getD b emptyTarget).center_points.getD t (0, 0)).1|
            + |((outputs.pred_center_points.getD b []).getD q (0, 0)).2
              - ((targets.getD b emptyTarget).center_points.getD t (0, 0)).2|) :=
  cost_matrix_sample_eq h hb hq ht

/-- Witness for C3 at a concrete 1-sample, 1-query, 1-class batch. -/
theorem C3_per_sample_cost_matrix_witness :
    (ValidShapes ⟨[[[0]]], [[(0, 0)]]⟩ [⟨[0], [(0, 0)]⟩]
        ∧ 0 < ([⟨[0], [(0, 0)]⟩] : List Target).length
        ∧ 0 < HungarianMatcher.num_queries ⟨[[[0]]], [[(0, 0)]]⟩
        ∧ 0 < (([⟨[0], [(0, 0)]⟩] : List Target).getD 0 emptyTarget).labels.length)
      ∧ HungarianMatcher.cost_matrix_sample ⟨true, 2, 5, 0.25, 2⟩ ⟨[[[0]]], [[(0, 0)]]⟩
          [⟨[0], [(0, 0)]⟩] 0 0 0
        = (2 : ℝ) * HungarianMatcher.specClassCost ⟨true, 2, 5, 0.25, 2⟩
              ((Outputs.pred_logits ⟨[[[0]]], [[(0, 0)]]⟩).getD 0 [] |>.getD 0 [])
              ((([⟨[0], [(0, 0)]⟩] : List Target).getD 0 emptyTarget).labels.getD 0 0)
          + (5 : ℝ) *
            (|(((Outputs.pred_center_points ⟨[[[0]]], [[(0, 0)]]⟩).getD 0 [] |>.getD 0 (0, 0)).1
                - ((([⟨[0], [(0, 0)]⟩] : List Target).getD 0
                    emptyTarget).center_points.getD 0 (0, 0)).1)|
              + |(((Outputs.pred_center_points ⟨[[[0]]], [[(0, 0)]]⟩).getD 0 []
                    |>.getD 0 (0, 0)).2
                - ((([⟨[0], [(0, 0)]⟩] : List Target).getD 0
                    emptyTarget).center_points.getD 0 (0, 0)).2)|) :=
  ⟨⟨⟨by decide, by decide, by decide, by decide, by decide⟩, by decide, by decide, by decide⟩,
    C3_per_sample_cost_matrix ⟨true, 2, 5, 0.25, 2⟩ ⟨[[[0]]], [[(0, 0)]]⟩ [⟨[0], [(0, 0)]⟩]
      0 0 0 ⟨by decide, by decide, by decide, by decide, by decide⟩
      (by decide) (by decide) (by decide)⟩

open HungarianMatcher in
/-- C4: with focal_loss enabled, the Matcher's per-slot class probabilities
are an independent per-class sigmoid of the logits, and its classification
cost for query q of sample b against a target of class c equals
alpha * (1 - p)^gamma * (-log(p + 1e-8))
  - (1 - alpha) * p^gamma * (-log(1 - p + 1e-8)) with p = sigmoid of the
logit of (b, q) at class c; build_matcher leaves the defaults alpha = 0.25
and gamma = 2.0. -/
theorem C4_focal_cost_formula (cfg : MatcherCfg) (outputs : Outputs)
    (targets : List Target) (b q t : ℕ) (h : ValidShapes outputs targets)
    (hfocal : cfg.focal_loss = true)
    (hb : b < targets.length) (hq : q < num_queries outputs)
    (ht : t < (targets.getD b emptyTarget).labels.length) :
    (∀ x : ℝ, sigmoid x = 1 / (1 + Real.exp (-x)))
      ∧ (∀ fl : Bool, (build_matcher fl).focal_alpha = 0.25
          ∧ (build_matcher fl).focal_gamma = 2.0)
      ∧ (∀ i c : ℕ, out_prob cfg outputs i c = sigmoid ((flatLogits outputs i).getD c 0))
      ∧ cost_class cfg outputs targets (b * num_queries outputs + q) (offsetOf targets b + t)
        = cfg.focal_alpha
            * (1 - sigmoid (((outputs.pred_logits.getD b []).getD q []).getD
                ((targets.getD b emptyTarget).labels.getD t 0) 0)) ^ cfg.focal_gamma
            * (-Real.log (sigmoid (((outputs.pred_logits.getD b []).getD q []).getD
                ((targets.getD b emptyTarget).labels.getD t 0) 0) + 1 / 10 ^ 8))
          - (1 - cfg.focal_alpha)
            * (sigmoid (((outputs.pred_logits.getD b []).getD q []).getD
                ((targets.getD b emptyTarget).labels.getD t 0) 0)) ^ cfg.focal_gamma
            * (-Real.log (1 - sigmoid (((outputs.pred_logits.getD b []).getD q []).getD
                ((targets.getD b emptyTarget).labels.getD t 0) 0) + 1 / 10 ^ 8)) := by
  refine ⟨fun x => rfl, fun fl => ⟨rfl, rfl⟩, fun i c => by rw [out_prob, if_pos hfocal], ?_⟩
  rw [cost_class_flat_eq h hb hq ht]
  rw [specClassCost, if_pos hfocal, pos_cost_class, neg_cost_class]

/-- Witness for C4 at a concrete 1-sample, 1-query, 1-class batch. -/
theorem C4_focal_cost_formula_witness :
    (ValidShapes ⟨[[[0]]], [[(0, 0)]]⟩ [⟨[0], [(0, 0)]⟩]
        ∧ (⟨true, 2, 5, 0.25, 2⟩ : MatcherCfg).focal_loss = true
        ∧ 0 < ([⟨[0], [(0, 0)]⟩] : List Target).length)
      ∧ (∀ x : ℝ, HungarianMatcher.sigmoid x = 1 / (1 + Real.exp (-x))) :=
  ⟨⟨⟨by decide, by decide, by decide, by decide, by decide⟩, by decide, by decide⟩,
    (C4_focal_cost_formula ⟨true, 2, 5, 0.25, 2⟩ ⟨[[[0]]], [[(0, 0)]]⟩ [⟨[0], [(0, 0)]⟩]
      0 0 0 ⟨by decide, by decide, by decide, by decide, by decide⟩ (by decide)
      (by decide) (by decide) (by decide)).1⟩

open HungarianMatcher in
/-- C9: with focal_loss disabled, the Matcher's classification cost for
query q of sample b against a target of class c equals minus the softmax
probability of c; and replacing the classification cost by 1 - prob (the
omitted constant plus one) shifts every entry of a sample's cost matrix by
the constant cost_class weight, leaving the assignment returned by the
solver — and hence by the Matcher — unchanged for every sample. -/
theorem C9_nonfocal_cost_shift (cfg : MatcherCfg) (outputs : Outputs)
    (targets : List Target) (b q t : ℕ) (h : ValidShapes outputs targets)
    (hfocal : cfg.focal_loss = false)
    (hb : b < targets.length) (hq : q < num_queries outputs)
    (ht : t < (targets.getD b emptyTarget).labels.length) :
    cost_class cfg outputs targets (b * num_queries outputs + q) (offsetOf targets b + t)
        = -softmaxAt ((outputs.pred_logits.getD b []).getD q [])
            ((targets.getD b emptyTarget).labels.getD t 0)
      ∧ ∀ b' < targets.length,
          linear_sum_assignment (num_queries outputs) ((sizes targets).getD b' 0)
              (cost_matrix_sample_one_minus cfg outputs targets b')
            = (forward cfg outputs targets).getD b' ([], []) := by
  constructor
  · rw [cost_class_flat_eq h hb hq ht]
    rw [specClassCost, if_neg (by rw [hfocal]; exact Bool.false_ne_true)]
  · intro b' hb'
    rw [forward_getD hb']
    have hfun : cost_matrix_sample_one_minus cfg outputs targets b'
        = fun u v => cost_matrix_sample cfg outputs targets b' u v + cfg.cost_class := by
      funext u v
      simp only [cost_matrix_sample_one_minus, cost_matrix_one_minus, cost_class_one_minus,
        cost_matrix_sample, cost_matrix, cost_class, hfocal, Bool.false_eq_true, if_false]
      ring
    rw [hfun, linear_sum_assignment_shift]

/-- Witness for C9 at a concrete 1-sample, 1-query, 1-class batch with the
softmax classification mode. -/
theorem C9_nonfocal_cost_shift_witness :
    (ValidShapes ⟨[[[0]]], [[(0, 0)]]⟩ [⟨[0], [(0, 0)]⟩]
        ∧ (⟨false, 2, 5, 0.25, 2⟩ : MatcherCfg).focal_loss = false
        ∧ 0 < ([⟨[0], [(0, 0)]⟩] : List Target).length)
      ∧ HungarianMatcher.cost_class ⟨false, 2, 5, 0.25, 2⟩ ⟨[[[0]]], [[(0, 0)]]⟩
          [⟨[0], [(0, 0)]⟩] 0 0
        = -HungarianMatcher.softmaxAt
            ((Outputs.pred_logits ⟨[[[0]]], [[(0, 0)]]⟩ |>.getD 0 []).getD 0 [])
            ((([⟨[0], [(0, 0)]⟩] : List Target).getD 0 emptyTarget).labels.getD 0 0) :=
  ⟨⟨⟨by decide, by decide, by decide, by decide, by decide⟩, by decide, by decide⟩,
    (C9_nonfocal_cost_shift ⟨false, 2, 5, 0.25, 2⟩ ⟨[[[0]]], [[(0, 0)]]⟩ [⟨[0], [(0, 0)]⟩]
      0 0 0 ⟨by decide, by decide, by decide, by decide, by decide⟩ (by decide)
      (by decide) (by decide) (by decide)).1⟩

/-- C5: the Criterion's classification loss builds a (B, Q) target-class
tensor filled with the sentinel num_classes, overwrites the matched
(batch, query) positions with their assigned labels, one-hot encodes and
drops the background column, so that every matched slot's row is one-hot at
its assigned label and every unmatched slot's row is all-zero; loss_ce
equals Q times the sigmoid focal loss of the raw logits against this
one-hot target normalized by num_objects. -/
theorem C5_classification_targets
    (sfl : (ℕ → ℕ → ℕ → ℝ) → (ℕ → ℕ → ℕ → ℝ) → ℝ → ℝ → ℝ → ℝ)
    (nc : ℕ) (fa fg : ℝ) (cfg : MatcherCfg) (outputs : Outputs) (targets : List Target)
    (n : ℝ) (hlabels : ∀ tg ∈ targets, ∀ l ∈ tg.labels, l < nc) :
    SetCriterion.loss_labels_focal sfl nc fa fg outputs targets
        (HungarianMatcher.forward cfg outputs targets) n
      = (HungarianMatcher.num_queries outputs : ℝ)
        * sfl (SetCriterion.src_logits outputs)
            (SetCriterion.target_classes_onehot nc targets
              (HungarianMatcher.forward cfg outputs targets)) n fa fg
    ∧ (∀ b, b < targets.length →
        ∀ k, k < (((HungarianMatcher.forward cfg outputs targets).getD b ([], [])).1).length →
        ∀ c, SetCriterion.target_classes_onehot nc targets
              (HungarianMatcher.forward cfg outputs targets) b
              ((((HungarianMatcher.forward cfg outputs targets).getD b ([], [])).1).getD k 0) c
          = if c = (targets.getD b emptyTarget).labels.getD
                ((((HungarianMatcher.forward cfg outputs targets).getD b ([], [])).2).getD k 0) 0
            then 1 else 0)
    ∧ (∀ b q, (b < targets.length →
          q ∉ (((HungarianMatcher.forward cfg outputs targets).getD b ([], [])).1)) →
        ∀ c, SetCriterion.target_classes_onehot nc targets
              (HungarianMatcher.forward cfg outputs targets) b q c = 0) := by
  have hlen : (HungarianMatcher.forward cfg outputs targets).length = targets.length :=
    HungarianMatcher.forward_length cfg outputs targets
  have hrc : ∀ p ∈ HungarianMatcher.forward cfg outputs targets,
      p.1.length = p.2.length :=
    fun p hp => (HungarianMatcher.forward_mem_spec p hp).1.1
  have hnd : ∀ p ∈ HungarianMatcher.forward cfg outputs targets, p.1.Nodup :=
    fun p hp => (HungarianMatcher.forward_mem_spec p hp).1.2
  refine ⟨?_, ?_, ?_⟩
  · rw [SetCriterion.loss_labels_focal]
    exact mul_comm _ _
  · intro b hb k hk c
    have hb' : b < (HungarianMatcher.forward cfg outputs targets).length := by
      rw [hlen]; exact hb
    rw [SetCriterion.target_classes_onehot,
      SetCriterion.target_classes_matched nc targets _ hlen hrc hnd hb' hk]
    have hklt : k < (((HungarianMatcher.forward cfg outputs targets).getD b ([], [])).2).length := by
      rw [← hrc _ (getD_mem hb')]
      exact hk
    have hcol : (((HungarianMatcher.forward cfg outputs targets).getD b ([], [])).2).getD k 0
        < (targets.getD b emptyTarget).labels.length :=
      HungarianMatcher.forward_cols_bound hb _ (getD_mem hklt)
    have hlabel_lt : (targets.getD b emptyTarget).labels.getD
        ((((HungarianMatcher.forward cfg outputs targets).getD b ([], [])).2).getD k 0) 0 < nc :=
      hlabels (targets.getD b emptyTarget) (getD_mem hb) _ (getD_mem hcol)
    by_cases hceq : c = (targets.getD b emptyTarget).labels.getD
        ((((HungarianMatcher.forward cfg outputs targets).getD b ([], [])).2).getD k 0) 0
    · rw [if_pos ⟨by rw [hceq]; exact hlabel_lt, hceq⟩, if_pos hceq]
    · rw [if_neg (fun hand => hceq hand.2), if_neg hceq]
  · intro b q hq c
    rw [SetCriterion.target_classes_onehot,
      SetCriterion.target_classes_unmatched nc targets _ hlen hrc
        (fun hbi => hq (by rw [← hlen]; exact hbi))]
    rw [if_neg]
    rintro ⟨h1, h2⟩
    rw [h2] at h1
    exact absurd h1 (lt_irrefl nc)

/-- Witness for C5 at a concrete 1-sample, 1-query, 1-class batch with an
arbitrary constant focal-loss functional. -/
theorem C5_classification_targets_witness :
    (∀ tg ∈ ([⟨[0], [(0, 0)]⟩] : List Target), ∀ l ∈ tg.labels, l < 1)
      ∧ SetCriterion.loss_labels_focal (fun _ _ _ _ _ => (0 : ℝ)) 1 (1/4) 2
            ⟨[[[0]]], [[(0, 0)]]⟩ [⟨[0], [(0, 0)]⟩]
            (HungarianMatcher.forward ⟨true, 2, 5, 0.25, 2⟩ ⟨[[[0]]], [[(0, 0)]]⟩
              [⟨[0], [(0, 0)]⟩]) 1
        = (HungarianMatcher.num_queries ⟨[[[0]]], [[(0, 0)]]⟩ : ℝ)
          * (fun (_ : ℕ → ℕ → ℕ → ℝ) (_ : ℕ → ℕ → ℕ → ℝ) (_ : ℝ) (_ : ℝ) (_ : ℝ) => (0 : ℝ))
              (SetCriterion.src_logits ⟨[[[0]]], [[(0, 0)]]⟩)
              (SetCriterion.target_classes_onehot 1 [⟨[0], [(0, 0)]⟩]
                (HungarianMatcher.forward ⟨true, 2, 5, 0.25, 2⟩ ⟨[[[0]]], [[(0, 0)]]⟩
                  [⟨[0], [(0, 0)]⟩])) 1 (1/4) 2 :=
  ⟨by decide,
    (C5_classification_targets (fun _ _ _ _ _ => (0 : ℝ)) 1 (1/4) 2 ⟨true, 2, 5, 0.25, 2⟩
      ⟨[[[0]]], [[(0, 0)]]⟩ [⟨[0], [(0, 0)]⟩] 1 (by decide)).1⟩

/-- C6: loss_center_point equals the sum, over all matched pairs and both
coordinates, of the absolute differences between the gathered predicted and
ground-truth center points, divided by num_objects, and the k-th gathered
prediction and target belong to the same batch element and the same matched
(row, column) pair; in particular the loss is 0 when every matched
predicted center point equals its matched target center point. -/
theorem C6_center_point_loss (cfg : MatcherCfg) (outputs : Outputs)
    (targets : List Target) (n : ℝ) :
    SetCriterion.loss_center_point outputs targets
        (HungarianMatcher.forward cfg outputs targets) n
      = ((List.range targets.length).map (fun i =>
          (((((HungarianMatcher.forward cfg outputs targets).getD i ([], [])).1).zip
              (((HungarianMatcher.forward cfg outputs targets).getD i ([], [])).2)).map
            (fun rc =>
              |((outputs.pred_center_points.getD i []).getD rc.1 (0, 0)).1
                - ((targets.getD i emptyTarget).center_points.getD rc.2 (0, 0)).1|
              + |((outputs.pred_center_points.getD i []).getD rc.1 (0, 0)).2
                - ((targets.getD i emptyTarget).center_points.getD rc.2 (0, 0)).2|)).sum)).sum
        / n
    ∧ ((∀ b, b < targets.length →
          ∀ rc ∈ ((((HungarianMatcher.forward cfg outputs targets).getD b ([], [])).1).zip
              (((HungarianMatcher.forward cfg outputs targets).getD b ([], [])).2)),
            (outputs.pred_center_points.getD b []).getD rc.1 (0, 0)
              = (targets.getD b emptyTarget).center_points.getD rc.2 (0, 0)) →
        SetCriterion.loss_center_point outputs targets
          (HungarianMatcher.forward cfg outputs targets) n = 0) := by
  have hlen : (HungarianMatcher.forward cfg outputs targets).length = targets.length :=
    HungarianMatcher.forward_length cfg outputs targets
  have hrc : ∀ p ∈ HungarianMatcher.forward cfg outputs targets,
      p.1.length = p.2.length :=
    fun p hp => (HungarianMatcher.forward_mem_spec p hp).1.1
  have hmain := SetCriterion.loss_cp_eq outputs targets
    (HungarianMatcher.forward cfg outputs targets) hlen hrc n
  rw [hlen] at hmain
  refine ⟨hmain, ?_⟩
  intro hperfect
  rw [hmain]
  have hzero : ((List.range targets.length).map (fun i =>
      (((((HungarianMatcher.forward cfg outputs targets).getD i ([], [])).1).zip
          (((HungarianMatcher.forward cfg outputs targets).getD i ([], [])).2)).map
        (fun rc =>
          |((outputs.pred_center_points.getD i []).getD rc.1 (0, 0)).1
            - ((targets.getD i emptyTarget).center_points.getD rc.2 (0, 0)).1|
          + |((outputs.pred_center_points.getD i []).getD rc.1 (0, 0)).2
            - ((targets.getD i emptyTarget).center_points.getD rc.2 (0, 0)).2|)).sum)).sum
      = 0 := by
    apply List.sum_eq_zero
    intro x hx
    obtain ⟨i, hi, hxi⟩ := List.mem_map.mp hx
    rw [← hxi]
    apply List.sum_eq_zero
    intro y hy
    obtain ⟨rc, hrcm, hyrc⟩ := List.mem_map.mp hy
    rw [← hyrc]
    have heqp := hperfect i (List.mem_range.mp hi) rc hrcm
    rw [heqp]
    simp
  rw [hzero, zero_div]

/-- Witness for C6 at a concrete 1-sample, 1-query batch with the predicted
center point equal to the target center point. -/
theorem C6_center_point_loss_witness :
    (∀ b, b < ([⟨[0], [(3, 4)]⟩] : List Target).length →
        ∀ rc ∈ ((((HungarianMatcher.forward ⟨true, 2, 5, 0.25, 2⟩ ⟨[[[0]]], [[(3, 4)]]⟩
              [⟨[0], [(3, 4)]⟩]).getD b ([], [])).1).zip
            (((HungarianMatcher.forward ⟨true, 2, 5, 0.25, 2⟩ ⟨[[[0]]], [[(3, 4)]]⟩
              [⟨[0], [(3, 4)]⟩]).getD b ([], [])).2)),
          ((Outputs.pred_center_points ⟨[[[0]]], [[(3, 4)]]⟩).getD b []).getD rc.1 (0, 0)
            = ((([⟨[0], [(3, 4)]⟩] : List Target).getD b emptyTarget).center_points).getD
                rc.2 (0, 0)) →
      SetCriterion.loss_center_point ⟨[[[0]]], [[(3, 4)]]⟩ [⟨[0], [(3, 4)]⟩]
        (HungarianMatcher.forward ⟨true, 2, 5, 0.25, 2⟩ ⟨[[[0]]], [[(3, 4)]]⟩
          [⟨[0], [(3, 4)]⟩]) 1 = 0 :=
  (C6_center_point_loss ⟨true, 2, 5, 0.25, 2⟩ ⟨[[[0]]], [[(3, 4)]]⟩ [⟨[0], [(3, 4)]⟩] 1).2

/-- C8: for a batch whose total ground-truth object count is zero, the
Criterion computes num_objects = 0 and performs the center-point loss
normalization with this zero denominator, with no guard, clamp to 1, or
error in between. -/
theorem C8_zero_num_objects
    (sfl : (ℕ → ℕ → ℕ → ℝ) → (ℕ → ℕ → ℕ → ℝ) → ℝ → ℝ → ℝ → ℝ)
    (nc : ℕ) (fa fg : ℝ) (cfg : MatcherCfg) (outputs : Outputs) (targets : List Target)
    (hz : (targets.map (fun t => t.labels.length)).sum = 0) :
    (SetCriterion.num_objects targets : ℝ) = 0
    ∧ (SetCriterion.forward sfl nc fa fg cfg outputs targets).2
      = (((SetCriterion.src_center_points_gathered outputs
            (HungarianMatcher.forward cfg outputs targets)).zip
          (SetCriterion.target_center_points_gathered targets
            (HungarianMatcher.forward cfg outputs targets))).map
          (fun p => |p.1.1 - p.2.1| + |p.1.2 - p.2.2|)).sum / (0 : ℝ) := by
  have hnum : (SetCriterion.num_objects targets : ℝ) = 0 := by
    rw [SetCriterion.num_objects, hz]
    exact Nat.cast_zero
  refine ⟨hnum, ?_⟩
  rw [SetCriterion.forward]
  rw [SetCriterion.loss_center_point, hnum]

/-- Witness for C8 at a concrete batch of one sample with no targets. -/
theorem C8_zero_num_objects_witness :
    (([⟨[], []⟩] : List Target).map (fun t => t.labels.length)).sum = 0
      ∧ (SetCriterion.num_objects [⟨[], []⟩] : ℝ) = 0 :=
  ⟨by decide,
    (C8_zero_num_objects (fun _ _ _ _ _ => (0 : ℝ)) 1 (1/4) 2 ⟨true, 2, 5, 0.25, 2⟩
      ⟨[[[0]]], [[(0, 0)]]⟩ [⟨[], []⟩] (by decide)).1⟩

/-- C10: a sample with zero targets gets the empty assignment pair from the
Matcher without error, its batch index never appears in the Criterion's
matched-position bookkeeping, and it contributes empty chunks to both the
gathered center points and the gathered matched labels. -/
theorem C10_empty_sample (cfg : MatcherCfg) (outputs : Outputs) (targets : List Target)
    (b : ℕ) (hb : b < targets.length)
    (hempty : (targets.getD b emptyTarget).labels = []) :
    (HungarianMatcher.forward cfg outputs targets).getD b ([], []) = ([], [])
    ∧ (∀ x ∈ (SetCriterion.get_src_permutation_idx
          (HungarianMatcher.forward cfg outputs targets)).1, x ≠ b)
    ∧ ((targets.zip (HungarianMatcher.forward cfg outputs targets)).map
        (fun p => p.2.2.map (fun j => p.1.center_points.getD j (0, 0)))).getD b [] = []
    ∧ ((targets.zip (HungarianMatcher.forward cfg outputs targets)).map
        (fun p => p.2.2.map (fun j => p.1.labels.getD j 0))).getD b [] = [] := by
  have h1 : (HungarianMatcher.forward cfg outputs targets).getD b ([], []) = ([], []) := by
    rw [HungarianMatcher.forward_getD hb, HungarianMatcher.sizes_getD, hempty,
      List.length_nil]
    exact linear_sum_assignment_zero_targets _ _
  have hlen : (HungarianMatcher.forward cfg outputs targets).length = targets.length :=
    HungarianMatcher.forward_length cfg outputs targets
  have hb' : b < (HungarianMatcher.forward cfg outputs targets).length := by
    rw [hlen]; exact hb
  have hzlen : b < (targets.zip (HungarianMatcher.forward cfg outputs targets)).length := by
    rw [List.length_zip, hlen, min_self]
    exact hb
  refine ⟨h1, ?_, ?_, ?_⟩
  · intro x hx hxb
    rw [SetCriterion.get_src_permutation_idx] at hx
    obtain ⟨chunk, hchunk, hxc⟩ := List.mem_flatten.mp hx
    obtain ⟨i, hi, hci⟩ := List.mem_map.mp hchunk
    rw [← hci] at hxc
    obtain ⟨r, hr, hri⟩ := List.mem_map.mp hxc
    have hib : i = b := by rw [← hxb, ← hri]
    rw [hib, h1] at hr
    simp at hr
  · rw [List.getD_eq_getElem _ [] (by simpa using hzlen), List.getElem_map,
      List.getElem_zip,
      ← List.getD_eq_getElem (HungarianMatcher.forward cfg outputs targets) ([], []) hb', h1]
    rfl
  · rw [List.getD_eq_getElem _ [] (by simpa using hzlen), List.getElem_map,
      List.getElem_zip,
      ← List.getD_eq_getElem (HungarianMatcher.forward cfg outputs targets) ([], []) hb', h1]
    rfl

/-- Witness for C10 at a concrete batch whose second sample has no
targets. -/
theorem C10_empty_sample_witness :
    (1 < ([⟨[0], [(0, 0)]⟩, ⟨[], []⟩] : List Target).length
        ∧ (([⟨[0], [(0, 0)]⟩, ⟨[], []⟩] : List Target).getD 1 emptyTarget).labels = [])
      ∧ (HungarianMatcher.forward ⟨true, 2, 5, 0.25, 2⟩ ⟨[[[0]], [[0]]], [[(0, 0)], [(0, 0)]]⟩
          [⟨[0], [(0, 0)]⟩, ⟨[], []⟩]).getD 1 ([], []) = ([], []) :=
  ⟨⟨by decide, by decide⟩,
    (C10_empty_sample ⟨true, 2, 5, 0.25, 2⟩ ⟨[[[0]], [[0]]], [[(0, 0)], [(0, 0)]]⟩
      [⟨[0], [(0, 0)]⟩, ⟨[], []⟩] 1 (by decide) (by decide)).1⟩

/-- C7 counterexample: a batch whose single sample has 2 targets while the
model has only 1 query slot.  The Matcher performs no validation and does
not fail: it silently returns the assignment ([0], [0]), matching the
single query to target 0 and leaving target 1 unmatched. -/
theorem C7_counterexample :
    HungarianMatcher.num_queries ⟨[[[0]]], [[(0, 0)]]⟩ = 1
      ∧ (([⟨[0, 0], [(0, 0), (1, 1)]⟩] : List Target).getD 0 emptyTarget).labels.length = 2
      ∧ HungarianMatcher.forward ⟨false, 0, 1, 0.25, 2⟩ ⟨[[[0]]], [[(0, 0)]]⟩
          [⟨[0, 0], [(0, 0), (1, 1)]⟩] = [([0], [0])] := by
  refine ⟨by decide, by decide, ?_⟩
  have hM0 : sumCost (HungarianMatcher.cost_matrix_sample ⟨false, 0, 1, 0.25, 2⟩
      ⟨[[[0]]], [[(0, 0)]]⟩ [⟨[0, 0], [(0, 0), (1, 1)]⟩] 0) (List.range 1) [0] = 0 := by
    rw [show List.range 1 = [0] from by decide]
    simp [sumCost, HungarianMatcher.cost_matrix_sample, HungarianMatcher.cost_matrix,
      HungarianMatcher.cost_center_points, HungarianMatcher.out_center_points,
      HungarianMatcher.tgt_center_points, HungarianMatcher.offsetOf,
      HungarianMatcher.sizes, HungarianMatcher.num_queries]
  have hM1 : sumCost (HungarianMatcher.cost_matrix_sample ⟨false, 0, 1, 0.25, 2⟩
      ⟨[[[0]]], [[(0, 0)]]⟩ [⟨[0, 0], [(0, 0), (1, 1)]⟩] 0) (List.range 1) [1] = 2 := by
    rw [show List.range 1 = [0] from by decide]
    simp [sumCost, HungarianMatcher.cost_matrix_sample, HungarianMatcher.cost_matrix,
      HungarianMatcher.cost_center_points, HungarianMatcher.out_center_points,
      HungarianMatcher.tgt_center_points, HungarianMatcher.offsetOf,
      HungarianMatcher.sizes, HungarianMatcher.num_queries]
    norm_num
  have hargmin : argminFirst
      (fun cols => sumCost (HungarianMatcher.cost_matrix_sample ⟨false, 0, 1, 0.25, 2⟩
        ⟨[[[0]]], [[(0, 0)]]⟩ [⟨[0, 0], [(0, 0), (1, 1)]⟩] 0) (List.range 1) cols)
      (injections 2 1) = some [0] := by
    have hinj : injections 2 1 = [[0], [1]] := by decide
    rw [hinj]
    simp only [argminFirst, List.foldl_cons, List.foldl_nil]
    rw [if_neg]
    rw [hM0, hM1]
    norm_num
  rw [HungarianMatcher.forward]
  rw [show ([⟨[0, 0], [(0, 0), (1, 1)]⟩] : List Target).length = 1 from by decide]
  rw [show List.range 1 = [0] from by decide]
  simp only [List.map_cons, List.map_nil]
  rw [show HungarianMatcher.num_queries ⟨[[[0]]], [[(0, 0)]]⟩ = 1 from by decide]
  rw [show (HungarianMatcher.sizes [⟨[0, 0], [(0, 0), (1, 1)]⟩]).getD 0 0 = 2 from by decide]
  rw [lap_gt_eval (by norm_num) _ hargmin]
  rw [show List.range 1 = [0] from by decide]

open HungarianMatcher in
/-- C7 amended: the code performs no validation of the targets.  When a
sample's target count exceeds the query count Q, the Matcher does not fail:
it silently returns a truncated assignment of length Q, so some targets are
left unmatched, and the losses are then computed from it. -/
theorem C7_amended_no_validation (cfg : MatcherCfg) (outputs : Outputs)
    (targets : List Target) (b : ℕ) (hb : b < targets.length)
    (hgt : num_queries outputs < (targets.getD b emptyTarget).labels.length) :
    ((forward cfg outputs targets).getD b ([], [])).1.length = num_queries outputs
      ∧ ((forward cfg outputs targets).getD b ([], [])).2.length = num_queries outputs
      ∧ ((forward cfg outputs targets).getD b ([], [])).2.length
          < (targets.getD b emptyTarget).labels.length := by
  have heq : (forward cfg outputs targets).getD b ([], [])
      = linear_sum_assignment (num_queries outputs)
          ((targets.getD b emptyTarget).labels.length)
          (cost_matrix_sample cfg outputs targets b) := by
    rw [forward_getD hb, sizes_getD]
  obtain ⟨h1, h2, _, _, _, _⟩ := linear_sum_assignment_valid (num_queries outputs)
    ((targets.getD b emptyTarget).labels.length)
    (cost_matrix_sample cfg outputs targets b)
  have hmin : min (num_queries outputs) (targets.getD b emptyTarget).labels.length
      = num_queries outputs := min_eq_left (le_of_lt hgt)
  rw [heq]
  refine ⟨by rw [h1, hmin], by rw [h2, hmin], by rw [h2, hmin]; exact hgt⟩

/-- Witness for the amended C7 at the counterexample's concrete batch. -/
theorem C7_amended_no_validation_witness :
    (0 < ([⟨[0, 0], [(0, 0), (1, 1)]⟩] : List Target).length
        ∧ HungarianMatcher.num_queries ⟨[[[0]]], [[(0, 0)]]⟩
          < (([⟨[0, 0], [(0, 0), (1, 1)]⟩] : List Target).getD 0 emptyTarget).labels.length)
      ∧ ((HungarianMatcher.forward ⟨false, 0, 1, 0.25, 2⟩ ⟨[[[0]]], [[(0, 0)]]⟩
          [⟨[0, 0], [(0, 0), (1, 1)]⟩]).getD 0 ([], [])).2.length
        < (([⟨[0, 0], [(0, 0), (1, 1)]⟩] : List Target).getD 0 emptyTarget).labels.length :=
  ⟨⟨by decide, by decide⟩,
    (C7_amended_no_validation ⟨false, 0, 1, 0.25, 2⟩ ⟨[[[0]]], [[(0, 0)]]⟩
      [⟨[0, 0], [(0, 0), (1, 1)]⟩] 0 (by decide) (by decide)).2.2⟩

end SensorDropout
